import Mathlib

/-!
Verification of the `rag_chatbot` web crawler / embedder subsystem.

Shallow embedding of:
  * `rag_chatbot/ingest/web_scraper.py` — URL normalization (`_normalize_url`),
    domain extraction (`_get_domain`), robots policy cache (`_check_robots_txt`),
    content extraction fallback (`_extract_text`, `_extract_text_static`),
    and the crawl scheduler (`WebScraper.crawl`).
  * `rag_chatbot/ingest/web_embedder.py` — `cosine_similarity`,
    `deduplicate_chunks`, `embed_web_to_qdrant`.

External library calls (HTTP, trafilatura, BeautifulSoup, Playwright, the
embedding model, qdrant) are modelled as explicit function parameters
("oracles"); the Python standard library's `urllib.parse.urlparse` is
modelled concretely (CPython `urllib/parse.py` semantics for the fields the
scraper reads: scheme, netloc, path), since URL normalization behaviour
depends on its exact splitting rules.  Strings are modelled as Lean
`String`/`List Char`; Python's Unicode-aware `str.lower()` is modelled as
ASCII lowering (identity on non-ASCII), and the `ValueError` branches of
`urlsplit` for bracketed/non-ASCII netlocs are outside the modelled input
class.  Floating point arithmetic in the embedder is modelled over `ℝ`.
-/

namespace RagChatbot

/-! ### Characters and low-level string helpers -/

/-- ASCII lowering of one character; models Python `str.lower()` on the
ASCII inputs the scraper's URL handling deals with (identity elsewhere). -/
def lowerChar (c : Char) : Char :=
  if 65 ≤ c.toNat ∧ c.toNat ≤ 90 then Char.ofNat (c.toNat + 32) else c

/-- Lowering of a character list. -/
def lowerChars (l : List Char) : List Char := l.map lowerChar

/-- The characters CPython's `urlsplit` accepts inside a URL scheme
(`scheme_chars` in `urllib/parse.py`). -/
def isSchemeChar (c : Char) : Bool :=
  c.isAlpha || c.isDigit || c == '+' || c == '-' || c == '.'

/-- Split a list at the first character satisfying `p`:
`some (before, after)` with the matching character removed, or `none` when no
character matches.  Models Python `str.find(c)` + slicing / `str.split(c, 1)`. -/
def breakAtFirst (p : Char → Bool) : List Char → Option (List Char × List Char)
  | [] => none
  | c :: cs =>
    if p c then some ([], cs)
    else match breakAtFirst p cs with
      | none => none
      | some (a, b) => some (c :: a, b)

/-- Longest predicate-satisfying initial segment together with the rest.
Models the netloc scan of `_splitnetloc`. -/
def splitWhile (p : Char → Bool) : List Char → List Char × List Char
  | [] => ([], [])
  | c :: cs =>
    if p c then
      let (a, b) := splitWhile p cs
      (c :: a, b)
    else ([], c :: cs)

/-- Python `str.rstrip('/')`. -/
def rstripSlash (l : List Char) : List Char :=
  (l.reverse.dropWhile (· == '/')).reverse

/-- ASCII whitespace for the model of Python `str.strip()`. -/
def isPyWhitespace (c : Char) : Bool :=
  c == ' ' || c == '\t' || c == '\n' || c == '\r' || c == '\x0b' || c == '\x0c'

/-- Python `str.strip()` (ASCII-whitespace model). -/
def pyStrip (s : String) : String :=
  String.mk (((s.data.dropWhile isPyWhitespace).reverse.dropWhile
    isPyWhitespace).reverse)

/-- Characters removed up front by CPython `urlsplit`
(`_UNSAFE_URL_BYTES_TO_REMOVE`). -/
def isUnsafeUrlChar (c : Char) : Bool :=
  c == '\t' || c == '\r' || c == '\n'

/-! ### `urllib.parse.urlparse`, restricted to the fields the scraper reads -/

/-- Result of `urlparse`/`urlsplit` (the scraper only reads `scheme`,
`netloc` and `path`; `params`, `query` and `fragment` are carried for
fidelity of the splitting). -/
structure UrlParts where
  scheme : List Char
  netloc : List Char
  path : List Char
  params : List Char
  query : List Char
  fragment : List Char
  deriving Repr, DecidableEq

/-- The scheme-recognition step of CPython `urlsplit`: chars before the
first `:` form the scheme when nonempty, ASCII-alphabetic at the front and
drawn from `scheme_chars`; the scheme is lowercased.  Returns
`(scheme, remainder)`. -/
def urlsplitScheme (url : List Char) : List Char × List Char :=
  match breakAtFirst (· == ':') url with
  | some (c :: pre, post) =>
    if c.isAlpha && (c :: pre).all isSchemeChar then
      (lowerChars (c :: pre), post)
    else ([], url)
  | _ => ([], url)

/-- The netloc step of CPython `urlsplit` (`url[:2] == '//'` then
`_splitnetloc`): scan up to the first of `/?#`. -/
def urlsplitNetloc (rest : List Char) : List Char × List Char :=
  match rest with
  | '/' :: '/' :: r =>
    splitWhile (fun c => !(c == '/' || c == '?' || c == '#')) r
  | _ => ([], rest)

/-- `url.split(ch, 1)` when `ch` occurs, else `(url, '')` — the fragment
and query steps of CPython `urlsplit`. -/
def splitOnChar (ch : Char) (l : List Char) : List Char × List Char :=
  match breakAtFirst (· == ch) l with
  | some (a, b) => (a, b)
  | none => (l, [])

/-- CPython `urlsplit` (with `allow_fragments=True`, default scheme `''`),
modulo the `ValueError` branches for bracketed IPv6 / non-ASCII netlocs. -/
def urlsplitChars (url0 : List Char) : UrlParts :=
  let url := url0.filter (fun c => !isUnsafeUrlChar c)
  let (scheme, rest) := urlsplitScheme url
  let (netloc, rest2) := urlsplitNetloc rest
  let (rest3, fragment) := splitOnChar '#' rest2
  let (path, query) := splitOnChar '?' rest3
  { scheme := scheme, netloc := netloc, path := path,
    params := [], query := query, fragment := fragment }

/-- The schemes for which `urlparse` splits `;params` off the path
(`uses_params` in `urllib/parse.py`). -/
def uses_params : List String :=
  ["", "ftp", "hdl", "prospero", "http", "imap", "https", "shttp",
   "rtsp", "rtspu", "sip", "sips", "mms", "sftp", "tel"]

/-- CPython `_splitparams`: split `;params` off the last path segment. -/
def splitparams (url : List Char) : List Char × List Char :=
  match breakAtFirst (· == '/') url.reverse with
  | some (revSeg, revPre) =>
    match breakAtFirst (· == ';') revSeg.reverse with
    | some (a, b) => (revPre.reverse ++ '/' :: a, b)
    | none => (url, [])
  | none =>
    match breakAtFirst (· == ';') url with
    | some (a, b) => (a, b)
    | none => (url, [])

/-- CPython `urlparse`: `urlsplit` plus params splitting for schemes in
`uses_params`. -/
def urlparseChars (l : List Char) : UrlParts :=
  let sp := urlsplitChars l
  if String.mk sp.scheme ∈ uses_params ∧ ';' ∈ sp.path then
    let (p, ps) := splitparams sp.path
    { sp with path := p, params := ps }
  else sp

/-! ### `WebScraper._normalize_url` and `WebScraper._get_domain` -/

/-- `WebScraper._normalize_url` (web_scraper.py:47-54): re-parse, drop query
and fragment, strip trailing slashes from the path (empty path becomes `/`),
rebuild `scheme://netloc path` and lowercase the whole result. -/
def normalize_url (url : String) : String :=
  let parsed := urlparseChars url.data
  let path := match rstripSlash parsed.path with
    | [] => ['/']
    | p => p
  String.mk (lowerChars (parsed.scheme ++ ':' :: '/' :: '/' :: parsed.netloc ++ path))

/-- `WebScraper._get_domain` (web_scraper.py:42-45): `scheme://netloc`. -/
def get_domain (url : String) : String :=
  let parsed := urlparseChars url.data
  String.mk (parsed.scheme ++ ':' :: '/' :: '/' :: parsed.netloc)

/-! ### Content extraction (`_extract_text_static`, `_extract_text`)

The network fetch, trafilatura extraction, title lookup and the Playwright
round-trip are oracles.  `playwright_run url = .error ()` models an exception
escaping `loop.run_until_complete` (the static result is then kept);
`.ok r` models `_extract_text_playwright` returning `r` (which replaces the
static result even when `r` is `None`). -/

/-- The page-data dictionary produced by the extraction tiers
(keys `url`, `title`, `text`, `html`). -/
structure PageData where
  url : String
  title : String
  text : String
  html : String
  deriving Repr, DecidableEq

/-- `WebScraper._extract_text_static` (web_scraper.py:113-144): fetch the
page (`none` = transport error / non-2xx), extract main text with
trafilatura (`none` = no text), reject text whose stripped length is below
100, take the `<title>` text (stripped) or fall back to the URL. -/
def extract_text_static (http_get : String → Option String)
    (trafilatura_extract : String → String → Option String)
    (find_title : String → Option String) (url : String) : Option PageData :=
  match http_get url with
  | none => none
  | some html =>
    match trafilatura_extract html url with
    | none => none
    | some text =>
      if (pyStrip text).length < 100 then none
      else
        let title := match find_title html with
          | some t => pyStrip t
          | none => url
        some { url := url, title := title, text := text, html := html }

/-- The guard of the Playwright fallback in `WebScraper._extract_text`
(web_scraper.py:190): `(result is None or len(result.get('text','')) < 200)
and use_playwright and PLAYWRIGHT_AVAILABLE`. -/
def playwright_attempted (static_result : Option PageData)
    (use_playwright PLAYWRIGHT_AVAILABLE : Bool) : Bool :=
  (static_result.isNone ||
      decide (((static_result.map PageData.text).getD "").length < 200))
    && use_playwright && PLAYWRIGHT_AVAILABLE

/-- `WebScraper._extract_text` (web_scraper.py:184-204): static tier first,
then the Playwright tier when the guard fires; an exception during the
Playwright attempt leaves the static result in place. -/
def extract_text (http_get : String → Option String)
    (trafilatura_extract : String → String → Option String)
    (find_title : String → Option String)
    (playwright_run : String → Except Unit (Option PageData))
    (use_playwright PLAYWRIGHT_AVAILABLE : Bool) (url : String) :
    Option PageData :=
  let result := extract_text_static http_get trafilatura_extract find_title url
  if playwright_attempted result use_playwright PLAYWRIGHT_AVAILABLE then
    match playwright_run url with
    | .ok r => r
    | .error _ => result
  else result

/-! ### Robots policy cache (`_check_robots_txt`) -/

/-- A fetched-and-parsed robots.txt, exposing `can_fetch(useragent, url)`. -/
structure RobotsParser where
  can_fetch : String → String → Bool

/-- `WebScraper._check_robots_txt` (web_scraper.py:56-77), with the fetch of
`<domain>/robots.txt` as an oracle (`none` = the fetch raised).  The mutable
`self.robots_cache` dict is threaded explicitly; the printed warning is
returned as a list of messages.  Returns (allowed, new cache, warnings). -/
def check_robots_txt (fetch_robots : String → Option RobotsParser)
    (robots_cache : List (String × Option RobotsParser)) (url : String) :
    Bool × List (String × Option RobotsParser) × List String :=
  let domain := get_domain url
  let (cache, warnings) :=
    match robots_cache.lookup domain with
    | some _ => (robots_cache, ([] : List String))
    | none =>
      match fetch_robots domain with
      | some rp => (robots_cache ++ [(domain, some rp)], [])
      | none => (robots_cache ++ [(domain, none)],
          ["Could not fetch robots.txt for " ++ domain])
  match cache.lookup domain with
  | some (some rp) => (rp.can_fetch "*" url, cache, warnings)
  | _ => (true, cache, warnings)

/-! ### Crawl scheduler (`WebScraper.crawl`)

The per-URL effects are oracles bundled in a `CrawlConfig`:
`robots_allowed` is the outcome of `self._check_robots_txt` (deterministic
per URL within a run, since robots files are fetched once per domain),
`extract` is `self._extract_text(·, use_playwright=True)`, `extract_links`
is `self._extract_links(html, base_url)`, and `now` supplies
`datetime.now().isoformat()` for the n-th processed page.  The progress
callback is modelled as an event log: one `CrawlEvent` per callback
invocation, in invocation order. -/

/-- The status strings passed to `progress_callback`. -/
inductive CrawlStatus
  | crawling
  | success
  | failed
  | blocked_by_robots
  deriving Repr, DecidableEq

/-- One `progress_callback(url, status, depth)` invocation. -/
structure CrawlEvent where
  url : String
  status : CrawlStatus
  depth : ℕ
  deriving Repr, DecidableEq

/-- A page dictionary as appended to `results` in `crawl`
(web_scraper.py:250-258): the extraction result with `url` overwritten by
the normalized URL and crawl metadata added (the `html` key from the
extraction result is retained). -/
structure CrawlResult where
  url : String
  title : String
  text : String
  html : String
  crawl_date : String
  domain : String
  source_type : String
  deriving Repr, DecidableEq

/-- Constructor arguments and external effects of a `WebScraper` run. -/
structure CrawlConfig where
  max_depth : ℕ
  max_pages : ℕ
  robots_allowed : String → Bool
  extract : String → Option PageData
  extract_links : String → String → List String
  now : ℕ → String

/-- The `while` loop of `WebScraper.crawl` (web_scraper.py:224-273).
State: frontier `to_visit` of (url, depth) pairs, `visited` (the
`visited_urls` set as an insertion-ordered list), `pages_crawled`,
accumulated `results` and the callback log. -/
def crawlLoop (cfg : CrawlConfig) (to_visit : List (String × ℕ))
    (visited : List String) (pages_crawled : ℕ)
    (results : List CrawlResult) (log : List CrawlEvent) :
    List CrawlResult × List CrawlEvent :=
  match to_visit with
  | [] => (results, log)
  | (url, depth) :: rest =>
    if _hpc : pages_crawled < cfg.max_pages then
      let nu := normalize_url url
      if nu ∈ visited ∨ cfg.max_depth < depth then
        crawlLoop cfg rest visited pages_crawled results log
      else if ¬ cfg.robots_allowed nu then
        crawlLoop cfg rest visited pages_crawled results
          (log ++ [⟨nu, .blocked_by_robots, depth⟩])
      else
        let visited' := visited ++ [nu]
        let pc' := pages_crawled + 1
        let log1 := log ++ [⟨nu, .crawling, depth⟩]
        match cfg.extract nu with
        | some page =>
          let res : CrawlResult :=
            { url := nu, title := page.title, text := page.text,
              html := page.html, crawl_date := cfg.now pc',
              domain := get_domain nu, source_type := "website" }
          let newTargets :=
            if depth < cfg.max_depth ∧ pc' < cfg.max_pages then
              (cfg.extract_links page.html nu).filterMap fun link =>
                let nl := normalize_url link
                if nl ∈ visited' then none else some (nl, depth + 1)
            else []
          crawlLoop cfg (rest ++ newTargets) visited' pc' (results ++ [res])
            (log1 ++ [⟨nu, .success, depth⟩])
        | none =>
          crawlLoop cfg rest visited' pc' results
            (log1 ++ [⟨nu, .failed, depth⟩])
    else (results, log)
  termination_by (cfg.max_pages - pages_crawled, to_visit.length)

/-- `WebScraper.crawl` (web_scraper.py:206-301): clear `visited_urls`,
normalize the seeds, seed the frontier at depth 0 and run the loop.
Returns (results, callback log). -/
def crawl (cfg : CrawlConfig) (start_urls : List String) :
    List CrawlResult × List CrawlEvent :=
  let normalized_start_urls := start_urls.map normalize_url
  crawlLoop cfg (normalized_start_urls.map fun u => (u, 0)) [] 0 [] []

/-- The sub-log of `crawling` events: one per URL that was counted against
the page budget and submitted to extraction ("processed"). -/
def crawlingEvents (log : List CrawlEvent) : List CrawlEvent :=
  log.filter fun e => e.status == CrawlStatus.crawling
/-- The `path.rstrip('/') or '/'` step of `_normalize_url`. -/
def pathFix (p : List Char) : List Char :=
  match rstripSlash p with
  | [] => ['/']
  | q => q
/-! ### Chunk deduplication (`web_embedder.py`)

Float arithmetic (numpy dot products, norms) is idealized over `ℝ`, so the
similarity test `similarity >= threshold` is a classical (noncomputable)
branch. -/

/-- Sum of pairwise products; models `np.dot` on equal-length 1-D vectors
(list `zip` truncates at the shorter list). -/
def dotList (v w : List ℝ) : ℝ := ((v.zip w).map fun p => p.1 * p.2).sum

/-- `cosine_similarity` (web_embedder.py:22-31): dot product over the
product of Euclidean norms, with `0.0` when either norm is zero. -/
noncomputable def cosine_similarity (vec1 vec2 : List ℝ) : ℝ :=
  let dot_product := dotList vec1 vec2
  let norm1 := Real.sqrt (dotList vec1 vec1)
  let norm2 := Real.sqrt (dotList vec2 vec2)
  if norm1 = 0 ∨ norm2 = 0 then 0 else dot_product / (norm1 * norm2)

/-- `SIMILARITY_THRESHOLD = 0.95` (web_embedder.py:19). -/
noncomputable def SIMILARITY_THRESHOLD : ℝ := 0.95

open Classical in
/-- The `for i, (chunk, emb) in enumerate(zip(chunks, embeddings))` loop of
`deduplicate_chunks` (web_embedder.py:48-61): `i` is the enumeration
counter; the three accumulators are `filtered_chunks`,
`filtered_embeddings`, `kept_indices`. -/
noncomputable def dedupGo (threshold : ℝ) :
    ℕ → List (String × List ℝ) → List String → List (List ℝ) → List ℕ →
    List String × List (List ℝ) × List ℕ
  | _, [], keptC, keptE, keptI => (keptC, keptE, keptI)
  | i, (chunk, emb) :: rest, keptC, keptE, keptI =>
    if ∃ kept_emb ∈ keptE, threshold ≤ cosine_similarity emb kept_emb then
      dedupGo threshold (i + 1) rest keptC keptE keptI
    else
      dedupGo threshold (i + 1) rest (keptC ++ [chunk]) (keptE ++ [emb]) (keptI ++ [i])

/-- `deduplicate_chunks` (web_embedder.py:34-63): inputs of length ≤ 1 are
returned unchanged with `range(len(chunks))` as kept indices; otherwise the
greedy forward scan keeps a chunk iff no already-kept embedding reaches the
similarity threshold against it. -/
noncomputable def deduplicate_chunks (chunks : List String)
    (embeddings : List (List ℝ)) (threshold : ℝ) :
    List String × List (List ℝ) × List ℕ :=
  if chunks.length ≤ 1 then (chunks, embeddings, List.range chunks.length)
  else dedupGo threshold 0 (chunks.zip embeddings) [] [] []

/-! #### Index-level view of the greedy scan

`keptIdx f θ m` is the list of original indices kept by the greedy scan
after considering candidates `0, …, m-1` with embedding sequence `f`;
`deduplicate_chunks` is proved equal to its image under the original lists. -/

open Classical in
/-- Kept original indices of the greedy forward scan over indices `< m`. -/
noncomputable def keptIdx (f : ℕ → List ℝ) (θ : ℝ) : ℕ → List ℕ
  | 0 => []
  | m + 1 =>
    let K := keptIdx f θ m
    if ∃ j ∈ K, θ ≤ cosine_similarity (f m) (f j) then K else K ++ [m]
/-! ### `embed_web_to_qdrant` (web_embedder.py:66-180)

The text splitter, the embedding model and the md5-based raw id are oracles;
qdrant writes are returned as a list of `upsert` calls (batches of 100).
Collection lookup/creation is not modelled.  Python exceptions are modelled
as `Except.error`; the `try`/`except` re-wraps inner errors as
`RuntimeError`. -/

/-- A Python error value: `ValueError` or `RuntimeError` with its message. -/
inductive PyError
  | valueError (msg : String)
  | runtimeError (msg : String)
  deriving Repr, DecidableEq

/-- The metadata dict built per chunk (web_embedder.py:97-103). -/
structure ChunkMeta where
  source_url : String
  page_title : String
  crawl_date : String
  domain : String
  source_type : String
  deriving Repr, DecidableEq, Inhabited

/-- A `PointStruct` as built in web_embedder.py:149-163. -/
structure QdrantPoint where
  id : ℕ
  vector : List ℝ
  payload_text : String
  payload_source : String
  payload_source_url : String
  payload_page_title : String
  payload_crawl_date : String
  payload_domain : String
  payload_source_type : String

/-- One `client.upsert(collection_name, points=batch)` call. -/
structure UpsertCall where
  collection : String
  points : List QdrantPoint

/-- Successive slices `l[i:i+size]` for `i in range(0, len(l), size)`. -/
def batchesOf {α : Type} (size : ℕ) (l : List α) : List (List α) :=
  if _h : l.length = 0 ∨ size = 0 then []
  else l.take size :: batchesOf size (l.drop size)
  termination_by l.length
  decreasing_by
    simp only [not_or] at _h
    simp [List.length_drop]
    omega

/-- `embed_web_to_qdrant` (web_embedder.py:66-180).  Returns the outcome
(`chunk count` or error) together with the list of vector-store writes
performed. -/
noncomputable def embed_web_to_qdrant
    (split_text : String → List String)
    (encode : String → List ℝ)
    (raw_point_id : String → ℕ → ℕ)
    (web_pages : List CrawlResult) (collection_name : String) :
    Except PyError ℕ × List UpsertCall :=
  if web_pages.isEmpty then
    (Except.error (PyError.valueError "No web pages provided for embedding"), [])
  else
    let gathered := web_pages.foldl (fun acc page =>
      let text := page.text
      if text = "" ∨ (pyStrip text).length < 50 then acc
      else acc ++ (split_text text).map fun chunk =>
        (chunk, ChunkMeta.mk page.url page.title page.crawl_date page.domain "website"))
      []
    let all_chunks := gathered.map Prod.fst
    let all_metadata := gathered.map Prod.snd
    if all_chunks.isEmpty then
      (Except.error (PyError.runtimeError
        "Failed to embed web content: No text chunks extracted from web pages"), [])
    else
      let embeddings := all_chunks.map encode
      let fr := deduplicate_chunks all_chunks embeddings SIMILARITY_THRESHOLD
      let filtered_chunks := fr.1
      let filtered_embeddings := fr.2.1
      let kept_indices := fr.2.2
      let filtered_metadata := kept_indices.map fun i => all_metadata.getD i default
      let points := (filtered_chunks.zip (filtered_embeddings.zip filtered_metadata)).enum.map
        fun p =>
          { id := raw_point_id p.2.2.2.source_url p.1 % 2 ^ 63,
            vector := p.2.2.1,
            payload_text := p.2.1,
            payload_source := p.2.2.2.source_url,
            payload_source_url := p.2.2.2.source_url,
            payload_page_title := p.2.2.2.page_title,
            payload_crawl_date := p.2.2.2.crawl_date,
            payload_domain := p.2.2.2.domain,
            payload_source_type := p.2.2.2.source_type : QdrantPoint }
      (Except.ok points.length,
        (batchesOf 100 points).map fun b => ⟨collection_name, b⟩)
/-! ### Concrete crawl scenario (depth bound)

A three-page chain: the seed links to `child`, `child` links to `grand`;
`max_depth = 1`, so `grand` (depth 2) must never be processed. -/

/-- Chain-site crawl configuration for the C3 scenario. -/
def chainConfig : CrawlConfig where
  max_depth := 1
  max_pages := 50
  robots_allowed := fun _ => true
  extract := fun u =>
    if u = "https://site.test/" then some ⟨u, "root", "t", "html-root"⟩
    else if u = "https://site.test/child" then
      some ⟨u, "child", "t", "html-child"⟩
    else if u = "https://site.test/grand" then
      some ⟨u, "grand", "t", "html-grand"⟩
    else none
  extract_links := fun html _ =>
    if html = "html-root" then ["https://site.test/child"]
    else if html = "html-child" then ["https://site.test/grand"]
    else []
  now := fun _ => "now"

/-! #### Branch equations for `crawlLoop` -/

lemma crawlLoop_nil (cfg : CrawlConfig) (vis : List String) (pc : ℕ)
    (res : List CrawlResult) (log : List CrawlEvent) :
    crawlLoop cfg [] vis pc res log = (res, log) := by
  rw [crawlLoop.eq_def]

lemma crawlLoop_stop (cfg : CrawlConfig) (u : String) (d : ℕ)
    (rest : List (String × ℕ)) (vis : List String) (pc : ℕ)
    (res : List CrawlResult) (log : List CrawlEvent)
    (hpc : ¬ pc < cfg.max_pages) :
    crawlLoop cfg ((u, d) :: rest) vis pc res log = (res, log) := by
  rw [crawlLoop.eq_def]
  simp only [dif_neg hpc]

lemma crawlLoop_skip (cfg : CrawlConfig) (u : String) (d : ℕ)
    (rest : List (String × ℕ)) (vis : List String) (pc : ℕ)
    (res : List CrawlResult) (log : List CrawlEvent)
    (hpc : pc < cfg.max_pages)
    (h : normalize_url u ∈ vis ∨ cfg.max_depth < d) :
    crawlLoop cfg ((u, d) :: rest) vis pc res log =
      crawlLoop cfg rest vis pc res log := by
  rw [crawlLoop.eq_def]
  simp only [dif_pos hpc, if_pos h]

lemma crawlLoop_blocked (cfg : CrawlConfig) (u : String) (d : ℕ)
    (rest : List (String × ℕ)) (vis : List String) (pc : ℕ)
    (res : List CrawlResult) (log : List CrawlEvent)
    (hpc : pc < cfg.max_pages)
    (h : ¬ (normalize_url u ∈ vis ∨ cfg.max_depth < d))
    (hr : ¬ cfg.robots_allowed (normalize_url u) = true) :
    crawlLoop cfg ((u, d) :: rest) vis pc res log =
      crawlLoop cfg rest vis pc res
        (log ++ [⟨normalize_url u, .blocked_by_robots, d⟩]) := by
  rw [crawlLoop.eq_def]
  simp only [dif_pos hpc, if_neg h, if_pos hr]

lemma crawlLoop_extract_some (cfg : CrawlConfig) (u : String) (d : ℕ)
    (rest : List (String × ℕ)) (vis : List String) (pc : ℕ)
    (res : List CrawlResult) (log : List CrawlEvent) (page : PageData)
    (hpc : pc < cfg.max_pages)
    (h : ¬ (normalize_url u ∈ vis ∨ cfg.max_depth < d))
    (hr : cfg.robots_allowed (normalize_url u) = true)
    (he : cfg.extract (normalize_url u) = some page) :
    crawlLoop cfg ((u, d) :: rest) vis pc res log =
      crawlLoop cfg
        (rest ++ (if d < cfg.max_depth ∧ pc + 1 < cfg.max_pages then
          (cfg.extract_links page.html (normalize_url u)).filterMap fun link =>
            if normalize_url link ∈ vis ++ [normalize_url u] then none
            else some (normalize_url link, d + 1)
          else []))
        (vis ++ [normalize_url u]) (pc + 1)
        (res ++ [{ url := normalize_url u, title := page.title,
                   text := page.text, html := page.html,
                   crawl_date := cfg.now (pc + 1),
                   domain := get_domain (normalize_url u),
                   source_type := "website" }])
        (log ++ [⟨normalize_url u, .crawling, d⟩] ++
          [⟨normalize_url u, .success, d⟩]) := by
  rw [crawlLoop.eq_def]
  simp only [dif_pos hpc, if_neg h, hr, not_true_eq_false, if_neg, he,
    not_false_eq_true, if_false, List.append_assoc]

lemma crawlLoop_extract_none (cfg : CrawlConfig) (u : String) (d : ℕ)
    (rest : List (String × ℕ)) (vis : List String) (pc : ℕ)
    (res : List CrawlResult) (log : List CrawlEvent)
    (hpc : pc < cfg.max_pages)
    (h : ¬ (normalize_url u ∈ vis ∨ cfg.max_depth < d))
    (hr : cfg.robots_allowed (normalize_url u) = true)
    (he : cfg.extract (normalize_url u) = none) :
    crawlLoop cfg ((u, d) :: rest) vis pc res log =
      crawlLoop cfg rest (vis ++ [normalize_url u]) (pc + 1) res
        (log ++ [⟨normalize_url u, .crawling, d⟩] ++
          [⟨normalize_url u, .failed, d⟩]) := by
  rw [crawlLoop.eq_def]
  simp only [dif_pos hpc, if_neg h, hr, not_true_eq_false, if_neg, he,
    not_false_eq_true, if_false, List.append_assoc]

/-! #### Invariants of the crawl loop -/


lemma crawlingEvents_append (l₁ l₂ : List CrawlEvent) :
    crawlingEvents (l₁ ++ l₂) = crawlingEvents l₁ ++ crawlingEvents l₂ := by
  simp [crawlingEvents]

lemma crawlLoop_budget (cfg : CrawlConfig) (q : List (String × ℕ))
    (vis : List String) (pc : ℕ) (res : List CrawlResult)
    (log : List CrawlEvent) :
    (crawlingEvents (crawlLoop cfg q vis pc res log).2).length ≤
      (crawlingEvents log).length + (cfg.max_pages - pc) := by
  induction q, vis, pc, res, log using crawlLoop.induct cfg with
  | case1 vis pc res log =>
    rw [crawlLoop_nil]
    exact Nat.le_add_right _ _
  | case2 vis pc res log u d rest hpc nu h ih =>
    rw [crawlLoop_skip cfg u d rest vis pc res log hpc h]
    exact ih
  | case3 vis pc res log u d rest hpc nu h hr ih =>
    rw [crawlLoop_blocked cfg u d rest vis pc res log hpc h hr]
    refine le_trans ih ?_
    simp [crawlingEvents_append, crawlingEvents]
  | case4 vis pc res log u d rest hpc nu h hr vis' pc' log1 page he res1 newT ih =>
    rw [crawlLoop_extract_some cfg u d rest vis pc res log page hpc h
      (not_not.mp hr) he]
    refine le_trans ih ?_
    simp only [log1, crawlingEvents_append]
    simp [crawlingEvents]
    omega
  | case5 vis pc res log u d rest hpc nu h hr vis' pc' log1 he ih =>
    rw [crawlLoop_extract_none cfg u d rest vis pc res log hpc h
      (not_not.mp hr) he]
    refine le_trans ih ?_
    simp only [log1, crawlingEvents_append]
    simp [crawlingEvents]
    omega
  | case6 vis pc res log u d rest hpc =>
    rw [crawlLoop_stop cfg u d rest vis pc res log hpc]
    exact Nat.le_add_right _ _

lemma crawlLoop_processed_nodup (cfg : CrawlConfig) (q : List (String × ℕ))
    (vis : List String) (pc : ℕ) (res : List CrawlResult)
    (log : List CrawlEvent)
    (hnd : ((crawlingEvents log).map CrawlEvent.url).Nodup)
    (hsub : ∀ u ∈ (crawlingEvents log).map CrawlEvent.url, u ∈ vis) :
    ((crawlingEvents (crawlLoop cfg q vis pc res log).2).map
      CrawlEvent.url).Nodup := by
  induction q, vis, pc, res, log using crawlLoop.induct cfg with
  | case1 vis pc res log =>
    rw [crawlLoop_nil]
    exact hnd
  | case2 vis pc res log u d rest hpc nu h ih =>
    rw [crawlLoop_skip cfg u d rest vis pc res log hpc h]
    exact ih hnd hsub
  | case3 vis pc res log u d rest hpc nu h hr ih =>
    rw [crawlLoop_blocked cfg u d rest vis pc res log hpc h hr]
    have hcc : crawlingEvents (log ++ [⟨nu, .blocked_by_robots, d⟩])
        = crawlingEvents log := by
      simp [crawlingEvents_append, crawlingEvents]
    rw [hcc] at ih
    exact ih hnd hsub
  | case4 vis pc res log u d rest hpc nu h hr vis' pc' log1 page he res1 newT ih =>
    rw [crawlLoop_extract_some cfg u d rest vis pc res log page hpc h
      (not_not.mp hr) he]
    have hnu : nu ∉ vis := fun hm => h (Or.inl hm)
    have hcc : (crawlingEvents (log1 ++ [⟨nu, .success, d⟩])).map CrawlEvent.url
        = (crawlingEvents log).map CrawlEvent.url ++ [nu] := by
      simp only [log1, crawlingEvents_append]
      simp [crawlingEvents]
    refine ih ?_ ?_
    · rw [hcc]
      refine List.nodup_append.mpr ⟨hnd, List.nodup_singleton _, ?_⟩
      intro a ha hb
      rw [List.mem_singleton] at hb
      subst hb
      exact hnu (hsub _ ha)
    · rw [hcc]
      intro x hx
      rcases List.mem_append.mp hx with hx | hx
      · exact List.mem_append_left _ (hsub x hx)
      · exact List.mem_append_right _ hx
  | case5 vis pc res log u d rest hpc nu h hr vis' pc' log1 he ih =>
    rw [crawlLoop_extract_none cfg u d rest vis pc res log hpc h
      (not_not.mp hr) he]
    have hnu : nu ∉ vis := fun hm => h (Or.inl hm)
    have hcc : (crawlingEvents (log1 ++ [⟨nu, .failed, d⟩])).map CrawlEvent.url
        = (crawlingEvents log).map CrawlEvent.url ++ [nu] := by
      simp only [log1, crawlingEvents_append]
      simp [crawlingEvents]
    refine ih ?_ ?_
    · rw [hcc]
      refine List.nodup_append.mpr ⟨hnd, List.nodup_singleton _, ?_⟩
      intro a ha hb
      rw [List.mem_singleton] at hb
      subst hb
      exact hnu (hsub _ ha)
    · rw [hcc]
      intro x hx
      rcases List.mem_append.mp hx with hx | hx
      · exact List.mem_append_left _ (hsub x hx)
      · exact List.mem_append_right _ hx
  | case6 vis pc res log u d rest hpc =>
    rw [crawlLoop_stop cfg u d rest vis pc res log hpc]
    exact hnd

lemma crawlLoop_depth_le (cfg : CrawlConfig) (q : List (String × ℕ))
    (vis : List String) (pc : ℕ) (res : List CrawlResult)
    (log : List CrawlEvent)
    (hlog : ∀ e ∈ log, e.depth ≤ cfg.max_depth) :
    ∀ e ∈ (crawlLoop cfg q vis pc res log).2, e.depth ≤ cfg.max_depth := by
  induction q, vis, pc, res, log using crawlLoop.induct cfg with
  | case1 vis pc res log =>
    rw [crawlLoop_nil]
    exact hlog
  | case2 vis pc res log u d rest hpc nu h ih =>
    rw [crawlLoop_skip cfg u d rest vis pc res log hpc h]
    exact ih hlog
  | case3 vis pc res log u d rest hpc nu h hr ih =>
    rw [crawlLoop_blocked cfg u d rest vis pc res log hpc h hr]
    refine ih ?_
    intro e he
    rcases List.mem_append.mp he with he | he
    · exact hlog e he
    · rw [List.mem_singleton] at he
      subst he
      have : ¬ cfg.max_depth < d := fun hd => h (Or.inr hd)
      simpa using Nat.le_of_not_lt this
  | case4 vis pc res log u d rest hpc nu h hr vis' pc' log1 page he res1 newT ih =>
    rw [crawlLoop_extract_some cfg u d rest vis pc res log page hpc h
      (not_not.mp hr) he]
    refine ih ?_
    have hd : ¬ cfg.max_depth < d := fun hd => h (Or.inr hd)
    intro e hme
    simp only [log1, List.append_assoc, List.mem_append, List.mem_singleton] at hme
    rcases hme with hme | hme | hme
    · exact hlog e hme
    · subst hme; simpa using Nat.le_of_not_lt hd
    · subst hme; simpa using Nat.le_of_not_lt hd
  | case5 vis pc res log u d rest hpc nu h hr vis' pc' log1 he ih =>
    rw [crawlLoop_extract_none cfg u d rest vis pc res log hpc h
      (not_not.mp hr) he]
    refine ih ?_
    have hd : ¬ cfg.max_depth < d := fun hd => h (Or.inr hd)
    intro e hme
    simp only [log1, List.append_assoc, List.mem_append, List.mem_singleton] at hme
    rcases hme with hme | hme | hme
    · exact hlog e hme
    · subst hme; simpa using Nat.le_of_not_lt hd
    · subst hme; simpa using Nat.le_of_not_lt hd
  | case6 vis pc res log u d rest hpc =>
    rw [crawlLoop_stop cfg u d rest vis pc res log hpc]
    exact hlog

lemma crawlLoop_depths_sorted (cfg : CrawlConfig) (q : List (String × ℕ))
    (vis : List String) (pc : ℕ) (res : List CrawlResult)
    (log : List CrawlEvent)
    (hq : List.Sorted (· ≤ ·) (q.map Prod.snd))
    (hband : ∀ a ∈ q.map Prod.snd, ∀ b ∈ q.map Prod.snd, b ≤ a + 1)
    (hlq : ∀ e ∈ log, ∀ b ∈ q.map Prod.snd, e.depth ≤ b)
    (hl : List.Sorted (· ≤ ·) (log.map CrawlEvent.depth)) :
    List.Sorted (· ≤ ·)
      ((crawlLoop cfg q vis pc res log).2.map CrawlEvent.depth) := by
  induction q, vis, pc, res, log using crawlLoop.induct cfg with
  | case1 vis pc res log =>
    rw [crawlLoop_nil]
    exact hl
  | case2 vis pc res log u d rest hpc nu h ih =>
    rw [crawlLoop_skip cfg u d rest vis pc res log hpc h]
    simp only [List.map_cons] at hq hband hlq
    exact ih (List.sorted_cons.mp hq).2
      (fun a ha b hb =>
        hband a (List.mem_cons_of_mem _ ha) b (List.mem_cons_of_mem _ hb))
      (fun e he b hb => hlq e he b (List.mem_cons_of_mem _ hb))
      hl
  | case3 vis pc res log u d rest hpc nu h hr ih =>
    rw [crawlLoop_blocked cfg u d rest vis pc res log hpc h hr]
    simp only [List.map_cons] at hq hband hlq
    have hq2 := List.sorted_cons.mp hq
    have hdmem : d ∈ d :: rest.map Prod.snd := List.mem_cons_self _ _
    refine ih hq2.2
      (fun a ha b hb =>
        hband a (List.mem_cons_of_mem _ ha) b (List.mem_cons_of_mem _ hb))
      ?_ ?_
    · intro e he b hb
      rcases List.mem_append.mp he with he | he
      · exact hlq e he b (List.mem_cons_of_mem _ hb)
      · rw [List.mem_singleton] at he
        subst he
        exact hq2.1 b hb
    · rw [List.map_append]
      refine List.pairwise_append.mpr ⟨hl, ?_, ?_⟩
      · simp
      · intro x hx y hy
        simp only [List.map_cons, List.map_nil, List.mem_singleton] at hy
        rcases List.mem_map.mp hx with ⟨e, he, rfl⟩
        rw [hy]
        exact hlq e he d hdmem
  | case4 vis pc res log u d rest hpc nu h hr vis' pc' log1 page he res1 newT ih =>
    rw [crawlLoop_extract_some cfg u d rest vis pc res log page hpc h
      (not_not.mp hr) he]
    simp only [List.map_cons] at hq hband hlq
    have hq2 := List.sorted_cons.mp hq
    have hdmem : d ∈ d :: rest.map Prod.snd := List.mem_cons_self _ _
    have hnewT : ∀ p ∈ newT, p.2 = d + 1 := by
      intro p hp
      simp only [newT] at hp
      split at hp
      · rcases List.mem_filterMap.mp hp with ⟨link, _hlink, hfl⟩
        split at hfl
        · exact absurd hfl (by simp)
        · have hinj := Option.some.inj hfl
          rw [← hinj]
      · simp at hp
    have hcross : ∀ b ∈ (rest ++ newT).map Prod.snd, d ≤ b ∧ b ≤ d + 1 := by
      intro b hb
      rw [List.map_append] at hb
      rcases List.mem_append.mp hb with hb | hb
      · exact ⟨hq2.1 b hb, hband d hdmem b (List.mem_cons_of_mem _ hb)⟩
      · rcases List.mem_map.mp hb with ⟨p, hp, rfl⟩
        rw [hnewT p hp]
        omega
    refine ih ?_ ?_ ?_ ?_
    · rw [List.map_append]
      refine List.pairwise_append.mpr ⟨hq2.2, ?_, ?_⟩
      · refine List.pairwise_of_forall_mem_list ?_
        intro a ha b hb
        rcases List.mem_map.mp ha with ⟨p, hp, rfl⟩
        rcases List.mem_map.mp hb with ⟨p', hp', rfl⟩
        rw [hnewT p hp, hnewT p' hp']
      · intro a ha b hb
        rcases List.mem_map.mp hb with ⟨p, hp, rfl⟩
        rw [hnewT p hp]
        exact hband d hdmem a (List.mem_cons_of_mem _ ha)
    · intro a ha b hb
      have ha' := hcross a ha
      have hb' := hcross b hb
      omega
    · intro e he' b hb
      have hb' := (hcross b hb).1
      simp only [log1, List.append_assoc, List.mem_append, List.mem_cons,
        List.mem_singleton, List.not_mem_nil, or_false] at he'
      rcases he' with he' | he' | he'
      · exact le_trans (hlq e he' d hdmem) hb'
      · subst he'
        exact hb'
      · subst he'
        exact hb'
    · simp only [log1, List.append_assoc]
      rw [List.map_append]
      refine List.pairwise_append.mpr ⟨hl, ?_, ?_⟩
      · simp
      · intro x hx y hy
        rcases List.mem_map.mp hx with ⟨e, hme, rfl⟩
        have hy' : y = d := by
          simp only [List.singleton_append, List.map_cons, List.map_nil,
            List.mem_cons, List.mem_singleton, List.not_mem_nil, or_false] at hy
          rcases hy with hy | hy <;> exact hy
        rw [hy']
        exact hlq e hme d hdmem
  | case5 vis pc res log u d rest hpc nu h hr vis' pc' log1 he ih =>
    rw [crawlLoop_extract_none cfg u d rest vis pc res log hpc h
      (not_not.mp hr) he]
    simp only [List.map_cons] at hq hband hlq
    have hq2 := List.sorted_cons.mp hq
    have hdmem : d ∈ d :: rest.map Prod.snd := List.mem_cons_self _ _
    refine ih hq2.2
      (fun a ha b hb =>
        hband a (List.mem_cons_of_mem _ ha) b (List.mem_cons_of_mem _ hb))
      ?_ ?_
    · intro e he' b hb
      simp only [log1, List.append_assoc, List.mem_append, List.mem_cons,
        List.mem_singleton, List.not_mem_nil, or_false] at he'
      rcases he' with he' | he' | he'
      · exact hlq e he' b (List.mem_cons_of_mem _ hb)
      · subst he'
        exact hq2.1 b hb
      · subst he'
        exact hq2.1 b hb
    · simp only [log1, List.append_assoc]
      rw [List.map_append]
      refine List.pairwise_append.mpr ⟨hl, ?_, ?_⟩
      · simp
      · intro x hx y hy
        rcases List.mem_map.mp hx with ⟨e, hme, rfl⟩
        have hy' : y = d := by
          simp only [List.singleton_append, List.map_cons, List.map_nil,
            List.mem_cons, List.mem_singleton, List.not_mem_nil, or_false] at hy
          rcases hy with hy | hy <;> exact hy
        rw [hy']
        exact hlq e hme d hdmem
  | case6 vis pc res log u d rest hpc =>
    rw [crawlLoop_stop cfg u d rest vis pc res log hpc]
    exact hl


lemma keptIdx_lt (f : ℕ → List ℝ) (θ : ℝ) :
    ∀ m, ∀ j ∈ keptIdx f θ m, j < m := by
  intro m
  induction m with
  | zero => simp [keptIdx]
  | succ n ih =>
    intro j hj
    simp only [keptIdx] at hj
    split at hj
    · exact Nat.lt_succ_of_lt (ih j hj)
    · rcases List.mem_append.mp hj with hj | hj
      · exact Nat.lt_succ_of_lt (ih j hj)
      · rw [List.mem_singleton] at hj
        omega

lemma keptIdx_sorted (f : ℕ → List ℝ) (θ : ℝ) :
    ∀ m, List.Sorted (· < ·) (keptIdx f θ m) := by
  intro m
  induction m with
  | zero => simp [keptIdx]
  | succ n ih =>
    simp only [keptIdx]
    split
    · exact ih
    · refine List.pairwise_append.mpr ⟨ih, by simp, ?_⟩
      intro a ha b hb
      rw [List.mem_singleton] at hb
      rw [hb]
      exact keptIdx_lt f θ n a ha

lemma keptIdx_head (f : ℕ → List ℝ) (θ : ℝ) :
    ∀ m, 0 < m → (keptIdx f θ m).head? = some 0 := by
  intro m
  induction m with
  | zero => omega
  | succ n ih =>
    intro _
    by_cases hn : 0 < n
    · have hh := ih hn
      simp only [keptIdx]
      split
      · exact hh
      · rw [List.head?_append, hh]
        rfl
    · have hn0 : n = 0 := by omega
      subst hn0
      simp [keptIdx]

lemma keptIdx_kept_sound (f : ℕ → List ℝ) (θ : ℝ) :
    ∀ m, ∀ i ∈ keptIdx f θ m, ∀ j ∈ keptIdx f θ m,
      j < i → cosine_similarity (f i) (f j) < θ := by
  intro m
  induction m with
  | zero => simp [keptIdx]
  | succ n ih =>
    intro i hi j hj hji
    simp only [keptIdx] at hi hj
    by_cases hc : ∃ j' ∈ keptIdx f θ n, θ ≤ cosine_similarity (f n) (f j')
    · rw [if_pos hc] at hi hj
      exact ih i hi j hj hji
    · rw [if_neg hc] at hi hj
      rcases List.mem_append.mp hi with hi | hi
      · rcases List.mem_append.mp hj with hj | hj
        · exact ih i hi j hj hji
        · rw [List.mem_singleton] at hj
          have := keptIdx_lt f θ n i hi
          omega
      · rw [List.mem_singleton] at hi
        subst hi
        rcases List.mem_append.mp hj with hj | hj
        · exact not_le.mp (fun hle => hc ⟨j, hj, hle⟩)
        · rw [List.mem_singleton] at hj
          omega

lemma keptIdx_dropped_complete (f : ℕ → List ℝ) (θ : ℝ) :
    ∀ m, ∀ i, i < m → i ∉ keptIdx f θ m →
      ∃ j ∈ keptIdx f θ m, j < i ∧ θ ≤ cosine_similarity (f i) (f j) := by
  intro m
  induction m with
  | zero => omega
  | succ n ih =>
    intro i hi hni
    simp only [keptIdx] at hni ⊢
    by_cases hc : ∃ j' ∈ keptIdx f θ n, θ ≤ cosine_similarity (f n) (f j')
    · rw [if_pos hc] at hni ⊢
      by_cases hin : i = n
      · subst hin
        rcases hc with ⟨j, hj, hle⟩
        exact ⟨j, hj, keptIdx_lt f θ i j hj, hle⟩
      · exact ih i (by omega) hni
    · rw [if_neg hc] at hni ⊢
      by_cases hin : i = n
      · subst hin
        exact absurd (List.mem_append_right _ (List.mem_singleton.mpr rfl)) hni
      · have hni' : i ∉ keptIdx f θ n :=
          fun hm => hni (List.mem_append_left _ hm)
        rcases ih i (by omega) hni' with ⟨j, hj, hji, hle⟩
        exact ⟨j, List.mem_append_left _ hj, hji, hle⟩

lemma dedupGo_eq_keptIdx (θ : ℝ) (chunks : List String) (embs : List (List ℝ))
    (hlen : chunks.length = embs.length) :
    ∀ gas k, chunks.length - k ≤ gas → k ≤ chunks.length →
      dedupGo θ k ((chunks.zip embs).drop k)
          ((keptIdx (fun i => embs.getD i []) θ k).map fun i => chunks.getD i "")
          ((keptIdx (fun i => embs.getD i []) θ k).map fun i => embs.getD i [])
          (keptIdx (fun i => embs.getD i []) θ k) =
        ((keptIdx (fun i => embs.getD i []) θ chunks.length).map
            fun i => chunks.getD i "",
         (keptIdx (fun i => embs.getD i []) θ chunks.length).map
            fun i => embs.getD i [],
         keptIdx (fun i => embs.getD i []) θ chunks.length) := by
  have hzlen : (chunks.zip embs).length = chunks.length := by
    rw [List.length_zip, hlen, min_self]
  intro gas
  induction gas with
  | zero =>
    intro k hg hk
    have hkn : k = chunks.length := by omega
    subst hkn
    have hdrop : (chunks.zip embs).drop chunks.length = [] := by
      rw [← hzlen]
      exact List.drop_length _
    rw [hdrop]
    simp [dedupGo]
  | succ g ih =>
    intro k hg hk
    by_cases hkn : k = chunks.length
    · subst hkn
      have hdrop : (chunks.zip embs).drop chunks.length = [] := by
        rw [← hzlen]
        exact List.drop_length _
      rw [hdrop]
      simp [dedupGo]
    · have hklt : k < chunks.length := by omega
      have hke : k < embs.length := by omega
      have hkz : k < (chunks.zip embs).length := by omega
      have hstep : (chunks.zip embs).drop k =
          (chunks[k], embs[k]) :: (chunks.zip embs).drop (k + 1) := by
        rw [List.drop_eq_getElem_cons hkz, List.getElem_zip]
      rw [hstep]
      simp only [dedupGo]
      have hgetc : chunks.getD k "" = chunks[k] := List.getD_eq_getElem chunks "" hklt
      have hgete : embs.getD k [] = embs[k] := List.getD_eq_getElem embs [] hke
      have hcond : (∃ ke ∈ (keptIdx (fun i => embs.getD i []) θ k).map
            (fun i => embs.getD i []), θ ≤ cosine_similarity embs[k] ke) ↔
          ∃ j ∈ keptIdx (fun i => embs.getD i []) θ k,
            θ ≤ cosine_similarity ((fun i => embs.getD i []) k)
              ((fun i => embs.getD i []) j) := by
        constructor
        · rintro ⟨ke, hke', hle⟩
          rcases List.mem_map.mp hke' with ⟨j, hj, rfl⟩
          refine ⟨j, hj, ?_⟩
          show θ ≤ cosine_similarity (embs.getD k []) (embs.getD j [])
          rw [hgete]
          exact hle
        · rintro ⟨j, hj, hle⟩
          refine ⟨embs.getD j [], List.mem_map.mpr ⟨j, hj, rfl⟩, ?_⟩
          rw [← hgete]
          exact hle
      by_cases hex : ∃ j ∈ keptIdx (fun i => embs.getD i []) θ k,
          θ ≤ cosine_similarity ((fun i => embs.getD i []) k)
            ((fun i => embs.getD i []) j)
      · rw [if_pos (hcond.mpr hex)]
        have hkept : keptIdx (fun i => embs.getD i []) θ (k + 1) =
            keptIdx (fun i => embs.getD i []) θ k := by
          simp only [keptIdx]
          rw [if_pos hex]
        have hrec := ih (k + 1) (by omega) (by omega)
        rw [hkept] at hrec
        exact hrec
      · rw [if_neg (fun hx => hex (hcond.mp hx))]
        have hkept : keptIdx (fun i => embs.getD i []) θ (k + 1) =
            keptIdx (fun i => embs.getD i []) θ k ++ [k] := by
          simp only [keptIdx]
          rw [if_neg hex]
        have hrec := ih (k + 1) (by omega) (by omega)
        rw [hkept] at hrec
        simp only [List.map_append, List.map_cons, List.map_nil] at hrec
        rw [hgetc, hgete] at hrec
        exact hrec

/-- `deduplicate_chunks` on parallel lists is the image of the index-level
greedy scan. -/
lemma deduplicate_chunks_eq (chunks : List String) (embs : List (List ℝ))
    (θ : ℝ) (hlen : chunks.length = embs.length) :
    deduplicate_chunks chunks embs θ =
      ((keptIdx (fun i => embs.getD i []) θ chunks.length).map
          fun i => chunks.getD i "",
       (keptIdx (fun i => embs.getD i []) θ chunks.length).map
          fun i => embs.getD i [],
       keptIdx (fun i => embs.getD i []) θ chunks.length) := by
  unfold deduplicate_chunks
  by_cases hle : chunks.length ≤ 1
  · rw [if_pos hle]
    match chunks, embs, hlen with
    | [], [], _ => simp [keptIdx]
    | [c], [e], _ =>
      simp only [List.length_singleton]
      rw [show keptIdx (fun i => ([e] : List (List ℝ)).getD i []) θ 1 = [0] by
        simp [keptIdx]]
      simp [List.range_succ]
  · rw [if_neg hle]
    have := dedupGo_eq_keptIdx θ chunks embs hlen (chunks.length - 0) 0
      (by omega) (by omega)
    simpa [keptIdx] using this

/-! #### Concrete similarity values

Rational-norm witness vectors: `[19,6,1,1,1]` has norm 20 and dot product 19
against the axis vector, giving cosine similarity exactly `0.95`;
`[9499,3125,58,3,1]` has norm 10000 and dot product 9499, giving exactly
`0.9499`. -/

lemma cosine_axis_self : cosine_similarity [1, 0] [1, 0] = 1 := by
  have h1 : dotList [1, 0] [1, 0] = 1 := by norm_num [dotList]
  simp only [cosine_similarity, h1, Real.sqrt_one]
  rw [if_neg (by norm_num)]
  norm_num

lemma cosine_axis_orth : cosine_similarity [0, 1] [1, 0] = 0 := by
  have h1 : dotList [0, 1] [1, 0] = 0 := by norm_num [dotList]
  have h2 : dotList [0, 1] [0, 1] = 1 := by norm_num [dotList]
  have h3 : dotList [1, 0] [1, 0] = 1 := by norm_num [dotList]
  simp only [cosine_similarity, h1, h2, h3, Real.sqrt_one]
  rw [if_neg (by norm_num)]
  norm_num

lemma cosine_boundary_eq :
    cosine_similarity [19, 6, 1, 1, 1] [1, 0, 0, 0, 0] = 19 / 20 := by
  have h1 : dotList [19, 6, 1, 1, 1] [1, 0, 0, 0, 0] = 19 := by
    norm_num [dotList]
  have h2 : dotList [19, 6, 1, 1, 1] [19, 6, 1, 1, 1] = 400 := by
    norm_num [dotList]
  have h3 : dotList [1, 0, 0, 0, 0] [1, 0, 0, 0, 0] = 1 := by
    norm_num [dotList]
  have h4 : Real.sqrt 400 = 20 := by
    rw [show (400 : ℝ) = 20 ^ 2 by norm_num]
    exact Real.sqrt_sq (by norm_num)
  simp only [cosine_similarity, h1, h2, h3, h4, Real.sqrt_one]
  rw [if_neg (by norm_num)]
  norm_num

lemma cosine_below_eq :
    cosine_similarity [9499, 3125, 58, 3, 1] [1, 0, 0, 0, 0] = 9499 / 10000 := by
  have h1 : dotList [9499, 3125, 58, 3, 1] [1, 0, 0, 0, 0] = 9499 := by
    norm_num [dotList]
  have h2 : dotList [9499, 3125, 58, 3, 1] [9499, 3125, 58, 3, 1]
      = 100000000 := by
    norm_num [dotList]
  have h3 : dotList [1, 0, 0, 0, 0] [1, 0, 0, 0, 0] = 1 := by
    norm_num [dotList]
  have h4 : Real.sqrt 100000000 = 10000 := by
    rw [show (100000000 : ℝ) = 10000 ^ 2 by norm_num]
    exact Real.sqrt_sq (by norm_num)
  simp only [cosine_similarity, h1, h2, h3, h4, Real.sqrt_one]
  rw [if_neg (by norm_num)]
  norm_num

open Classical in
lemma keptIdx_succ (f : ℕ → List ℝ) (θ : ℝ) (m : ℕ) :
    keptIdx f θ (m + 1) =
      if ∃ j ∈ keptIdx f θ m, θ ≤ cosine_similarity (f m) (f j)
      then keptIdx f θ m else keptIdx f θ m ++ [m] := by
  simp only [keptIdx]

lemma keptIdx_zero (f : ℕ → List ℝ) (θ : ℝ) : keptIdx f θ 0 = [] := rfl

lemma keptIdx_one (f : ℕ → List ℝ) (θ : ℝ) : keptIdx f θ 1 = [0] := by
  rw [keptIdx_succ, keptIdx_zero, if_neg (by simp)]
  rfl

/-! #### Concrete deduplication runs -/

lemma keptIdx_pair_boundary :
    keptIdx (fun i => ([[1,0,0,0,0],[19,6,1,1,1]] : List (List ℝ)).getD i [])
      SIMILARITY_THRESHOLD 2 = [0] := by
  rw [keptIdx_succ, keptIdx_one, if_pos]
  refine ⟨0, List.mem_singleton.mpr rfl, ?_⟩
  show SIMILARITY_THRESHOLD ≤ cosine_similarity [19,6,1,1,1] [1,0,0,0,0]
  rw [cosine_boundary_eq]
  norm_num [SIMILARITY_THRESHOLD]

lemma keptIdx_pair_below :
    keptIdx (fun i => ([[1,0,0,0,0],[9499,3125,58,3,1]] : List (List ℝ)).getD i [])
      SIMILARITY_THRESHOLD 2 = [0, 1] := by
  rw [keptIdx_succ, keptIdx_one, if_neg]
  · rfl
  · rintro ⟨j, hj, hle⟩
    rw [List.mem_singleton] at hj
    subst hj
    rw [show ([[1,0,0,0,0],[9499,3125,58,3,1]] :
        List (List ℝ)).getD 1 [] = [9499,3125,58,3,1] from rfl,
      show ([[1,0,0,0,0],[9499,3125,58,3,1]] :
        List (List ℝ)).getD 0 [] = [1,0,0,0,0] from rfl,
      cosine_below_eq] at hle
    norm_num [SIMILARITY_THRESHOLD] at hle

lemma keptIdx_triple :
    keptIdx (fun i => ([[1,0],[1,0],[0,1]] : List (List ℝ)).getD i [])
      SIMILARITY_THRESHOLD 3 = [0, 2] := by
  have k2 : keptIdx (fun i => ([[1,0],[1,0],[0,1]] : List (List ℝ)).getD i [])
      SIMILARITY_THRESHOLD 2 = [0] := by
    rw [keptIdx_succ, keptIdx_one, if_pos]
    refine ⟨0, List.mem_singleton.mpr rfl, ?_⟩
    show SIMILARITY_THRESHOLD ≤ cosine_similarity [1,0] [1,0]
    rw [cosine_axis_self]
    norm_num [SIMILARITY_THRESHOLD]
  rw [keptIdx_succ, k2, if_neg]
  · rfl
  · rintro ⟨j, hj, hle⟩
    rw [List.mem_singleton] at hj
    subst hj
    rw [show ([[1,0],[1,0],[0,1]] :
        List (List ℝ)).getD 2 [] = [0,1] from rfl,
      show ([[1,0],[1,0],[0,1]] :
        List (List ℝ)).getD 0 [] = [1,0] from rfl,
      cosine_axis_orth] at hle
    norm_num [SIMILARITY_THRESHOLD] at hle

lemma dedup_pair_boundary_eval :
    deduplicate_chunks ["x", "y"] [[1,0,0,0,0], [19,6,1,1,1]]
      SIMILARITY_THRESHOLD = (["x"], [[1,0,0,0,0]], [0]) := by
  rw [deduplicate_chunks_eq _ _ _ rfl]
  rw [show (["x", "y"] : List String).length = 2 from rfl, keptIdx_pair_boundary]
  rfl

lemma dedup_pair_below_eval :
    deduplicate_chunks ["x", "y"] [[1,0,0,0,0], [9499,3125,58,3,1]]
      SIMILARITY_THRESHOLD
      = (["x", "y"], [[1,0,0,0,0], [9499,3125,58,3,1]], [0, 1]) := by
  rw [deduplicate_chunks_eq _ _ _ rfl]
  rw [show (["x", "y"] : List String).length = 2 from rfl, keptIdx_pair_below]
  rfl

lemma dedup_triple_eval :
    deduplicate_chunks ["A", "B", "C"] [[1,0], [1,0], [0,1]]
      SIMILARITY_THRESHOLD = (["A", "C"], [[1,0], [0,1]], [0, 2]) := by
  rw [deduplicate_chunks_eq _ _ _ rfl]
  rw [show (["A", "B", "C"] : List String).length = 3 from rfl, keptIdx_triple]
  rfl


/-! ### URL normalization: character-level facts -/

lemma char_toNat_inj {a b : Char} (h : a.toNat = b.toNat) : a = b :=
  Char.ext (UInt32.ext h)

lemma char_le_iff (a b : Char) : a ≤ b ↔ a.toNat ≤ b.toNat := by
  rw [Char.le_def]
  exact Iff.rfl

lemma lowerChar_toNat (c : Char) :
    (lowerChar c).toNat =
      if 65 ≤ c.toNat ∧ c.toNat ≤ 90 then c.toNat + 32 else c.toNat := by
  unfold lowerChar
  split
  · next h =>
    have hv : Nat.isValidChar (c.toNat + 32) := by
      left
      omega
    unfold Char.ofNat
    rw [dif_pos hv]
    rfl
  · rfl

lemma lowerChar_eq_self (c : Char) (h : ¬(65 ≤ c.toNat ∧ c.toNat ≤ 90)) :
    lowerChar c = c := by
  unfold lowerChar
  rw [if_neg h]

lemma lowerChar_idem (c : Char) : lowerChar (lowerChar c) = lowerChar c := by
  by_cases h : 65 ≤ c.toNat ∧ c.toNat ≤ 90
  · refine lowerChar_eq_self _ ?_
    rw [lowerChar_toNat c, if_pos h]
    omega
  · rw [lowerChar_eq_self c h, lowerChar_eq_self c h]

lemma lowerChar_toNat_eq_or (c : Char) :
    (lowerChar c).toNat = c.toNat ∨
      (97 ≤ (lowerChar c).toNat ∧ (lowerChar c).toNat ≤ 122) := by
  rw [lowerChar_toNat]
  split
  · right
    next h => omega
  · left
    rfl

/-- `lowerChar` moves nothing onto a character below the lowercase-letter
range except that character itself. -/
lemma lowerChar_eq_iff (c d : Char) (hd : d.toNat < 65 ∨ 122 < d.toNat) :
    lowerChar c = d ↔ c = d := by
  constructor
  · intro he
    rcases lowerChar_toNat_eq_or c with h | h
    · exact char_toNat_inj (by rw [← h, he])
    · rw [he] at h
      omega
  · intro he
    rw [he]
    exact lowerChar_eq_self d (by omega)

lemma isUpper_iff (c : Char) :
    c.isUpper = true ↔ 65 ≤ c.toNat ∧ c.toNat ≤ 90 := by
  unfold Char.isUpper
  simp only [Bool.and_eq_true, decide_eq_true_eq, ge_iff_le]
  exact Iff.rfl

lemma isLower_iff (c : Char) :
    c.isLower = true ↔ 97 ≤ c.toNat ∧ c.toNat ≤ 122 := by
  unfold Char.isLower
  simp only [Bool.and_eq_true, decide_eq_true_eq, ge_iff_le]
  exact Iff.rfl

lemma isAlpha_iff (c : Char) :
    c.isAlpha = true ↔
      (65 ≤ c.toNat ∧ c.toNat ≤ 90) ∨ (97 ≤ c.toNat ∧ c.toNat ≤ 122) := by
  unfold Char.isAlpha
  rw [Bool.or_eq_true, isUpper_iff, isLower_iff]

lemma isAlpha_lowerChar (c : Char) (h : c.isAlpha = true) :
    (lowerChar c).isAlpha = true := by
  by_cases hc : 65 ≤ c.toNat ∧ c.toNat ≤ 90
  · have ht : (lowerChar c).toNat = c.toNat + 32 := by
      rw [lowerChar_toNat, if_pos hc]
    exact (isAlpha_iff _).mpr (Or.inr (by omega))
  · rw [lowerChar_eq_self c hc]
    exact h

lemma isSchemeChar_lowerChar (c : Char) (h : isSchemeChar c = true) :
    isSchemeChar (lowerChar c) = true := by
  by_cases hc : 65 ≤ c.toNat ∧ c.toNat ≤ 90
  · have ht : (lowerChar c).toNat = c.toNat + 32 := by
      rw [lowerChar_toNat, if_pos hc]
    have : (lowerChar c).isAlpha = true := (isAlpha_iff _).mpr (Or.inr (by omega))
    unfold isSchemeChar
    rw [this]
    rfl
  · rw [lowerChar_eq_self c hc]
    exact h

lemma isSchemeChar_ne_colon (c : Char) (h : isSchemeChar c = true) :
    c ≠ ':' := by
  intro he
  subst he
  simp [isSchemeChar, Char.isAlpha, Char.isUpper, Char.isLower,
    Char.isDigit] at h

lemma lowerChar_unsafe (c : Char) (h : isUnsafeUrlChar c = false) :
    isUnsafeUrlChar (lowerChar c) = false := by
  unfold isUnsafeUrlChar at h ⊢
  simp only [Bool.or_eq_false_iff, beq_eq_false_iff_ne] at h ⊢
  obtain ⟨⟨h1, h2⟩, h3⟩ := h
  exact ⟨⟨fun he => h1 ((lowerChar_eq_iff c _ (by left; decide)).mp he),
    fun he => h2 ((lowerChar_eq_iff c _ (by left; decide)).mp he)⟩,
    fun he => h3 ((lowerChar_eq_iff c _ (by left; decide)).mp he)⟩

/-! ### URL normalization: splitting-function characterizations -/

lemma breakAtFirst_of_append (p : Char → Bool) (a : List Char) (c : Char)
    (b : List Char) (ha : ∀ x ∈ a, p x = false) (hc : p c = true) :
    breakAtFirst p (a ++ c :: b) = some (a, b) := by
  induction a with
  | nil =>
    simp only [List.nil_append, breakAtFirst, hc, if_true]
  | cons x xs ih =>
    have hx : p x = false := ha x (List.mem_cons_self _ _)
    rw [List.cons_append]
    simp only [breakAtFirst, hx, Bool.false_eq_true, if_false,
      ih (fun y hy => ha y (List.mem_cons_of_mem _ hy))]

lemma breakAtFirst_of_not_mem (p : Char → Bool) (l : List Char)
    (h : ∀ x ∈ l, p x = false) : breakAtFirst p l = none := by
  induction l with
  | nil => rfl
  | cons x xs ih =>
    simp only [breakAtFirst, h x (List.mem_cons_self _ _),
      Bool.false_eq_true, if_false,
      ih (fun y hy => h y (List.mem_cons_of_mem _ hy))]

lemma breakAtFirst_eq_some (p : Char → Bool) (l : List Char) :
    ∀ a b, breakAtFirst p l = some (a, b) →
      (∀ x ∈ a, p x = false) ∧ ∃ c, p c = true ∧ l = a ++ c :: b := by
  induction l with
  | nil =>
    intro a b h
    simp [breakAtFirst] at h
  | cons x xs ih =>
    intro a b h
    simp only [breakAtFirst] at h
    by_cases hx : p x = true
    · rw [if_pos hx] at h
      simp only [Option.some.injEq, Prod.mk.injEq] at h
      obtain ⟨rfl, rfl⟩ := h
      exact ⟨by simp, x, hx, rfl⟩
    · rw [if_neg hx] at h
      cases hb : breakAtFirst p xs with
      | none =>
        rw [hb] at h
        simp at h
      | some ab =>
        obtain ⟨a', b'⟩ := ab
        rw [hb] at h
        simp only [Option.some.injEq, Prod.mk.injEq] at h
        obtain ⟨rfl, rfl⟩ := h
        rcases ih a' b' hb with ⟨hfa, c, hc, hdecomp⟩
        refine ⟨?_, c, hc, by rw [hdecomp, List.cons_append]⟩
        intro y hy
        rcases List.mem_cons.mp hy with rfl | hy
        · simpa using hx
        · exact hfa y hy

lemma breakAtFirst_eq_none (p : Char → Bool) (l : List Char)
    (h : breakAtFirst p l = none) : ∀ x ∈ l, p x = false := by
  induction l with
  | nil => simp
  | cons x xs ih =>
    simp only [breakAtFirst] at h
    by_cases hx : p x = true
    · rw [if_pos hx] at h
      simp at h
    · rw [if_neg hx] at h
      intro y hy
      rcases List.mem_cons.mp hy with rfl | hy
      · simpa using hx
      · cases hb : breakAtFirst p xs with
        | none => exact ih hb y hy
        | some ab =>
          rw [hb] at h
          obtain ⟨a', b'⟩ := ab
          simp at h

lemma splitWhile_of_append (p : Char → Bool) (a b : List Char)
    (ha : ∀ x ∈ a, p x = true)
    (hb : b = [] ∨ ∃ c t, b = c :: t ∧ p c = false) :
    splitWhile p (a ++ b) = (a, b) := by
  induction a with
  | nil =>
    rcases hb with rfl | ⟨c, t, rfl, hc⟩
    · rfl
    · simp only [List.nil_append, splitWhile, hc, Bool.false_eq_true, if_false]
  | cons x xs ih =>
    have hx : p x = true := ha x (List.mem_cons_self _ _)
    rw [List.cons_append]
    simp only [splitWhile, hx, if_true,
      ih (fun y hy => ha y (List.mem_cons_of_mem _ hy))]

lemma splitWhile_eq (p : Char → Bool) (l : List Char) :
    ∀ a b, splitWhile p l = (a, b) →
      (∀ x ∈ a, p x = true) ∧ l = a ++ b ∧
        (b = [] ∨ ∃ c t, b = c :: t ∧ p c = false) := by
  induction l with
  | nil =>
    intro a b h
    simp only [splitWhile, Prod.mk.injEq] at h
    obtain ⟨rfl, rfl⟩ := h
    exact ⟨by simp, rfl, Or.inl rfl⟩
  | cons x xs ih =>
    intro a b h
    simp only [splitWhile] at h
    by_cases hx : p x = true
    · rw [if_pos hx] at h
      cases hs : splitWhile p xs with
      | mk a' b' =>
        rw [hs] at h
        simp only [Prod.mk.injEq] at h
        obtain ⟨rfl, rfl⟩ := h
        rcases ih a' b' hs with ⟨hfa, hdec, hshape⟩
        refine ⟨?_, by rw [hdec, List.cons_append], hshape⟩
        intro y hy
        rcases List.mem_cons.mp hy with rfl | hy
        · exact hx
        · exact hfa y hy
    · rw [if_neg hx] at h
      simp only [Prod.mk.injEq] at h
      obtain ⟨rfl, rfl⟩ := h
      exact ⟨by simp, rfl, Or.inr ⟨x, xs, rfl, by simpa using hx⟩⟩

lemma splitOnChar_of_not_mem (ch : Char) (l : List Char)
    (h : ∀ x ∈ l, x ≠ ch) : splitOnChar ch l = (l, []) := by
  unfold splitOnChar
  rw [breakAtFirst_of_not_mem _ _ (fun x hx => by
    simpa using h x hx)]

/-! ### URL normalization: `rstrip('/')` facts -/

lemma dropWhile_shape (p : Char → Bool) (l : List Char) :
    l.dropWhile p = [] ∨
      ∃ c t, l.dropWhile p = c :: t ∧ p c = false := by
  induction l with
  | nil => exact Or.inl rfl
  | cons x xs ih =>
    by_cases hx : p x = true
    · rw [List.dropWhile_cons_of_pos hx]
      exact ih
    · rw [List.dropWhile_cons_of_neg hx]
      exact Or.inr ⟨x, xs, rfl, by simpa using hx⟩

lemma rstripSlash_decomp (l : List Char) :
    ∃ t, l = rstripSlash l ++ t ∧ ∀ c ∈ t, c = '/' := by
  unfold rstripSlash
  refine ⟨(l.reverse.takeWhile (· == '/')).reverse, ?_, ?_⟩
  · conv_lhs => rw [← List.reverse_reverse l]
    conv_lhs =>
      rw [← List.takeWhile_append_dropWhile (p := (· == '/')) (l := l.reverse)]
    rw [List.reverse_append]
  · intro c hc
    rw [List.mem_reverse] at hc
    simpa using List.mem_takeWhile_imp hc

lemma rstripSlash_shape (l : List Char) :
    rstripSlash l = [] ∨
      ∃ c t, rstripSlash l = t ++ [c] ∧ c ≠ '/' := by
  unfold rstripSlash
  rcases dropWhile_shape (· == '/') l.reverse with h | ⟨c, t, h, hc⟩
  · rw [h]
    exact Or.inl rfl
  · rw [h]
    refine Or.inr ⟨c, t.reverse, by simp, by simpa using hc⟩

lemma rstripSlash_eq_self (l : List Char)
    (h : ∀ t c, l = t ++ [c] → c ≠ '/') : rstripSlash l = l := by
  unfold rstripSlash
  cases hr : l.reverse with
  | nil =>
    have : l = [] := by simpa using congrArg List.reverse hr
    rw [this]
    rfl
  | cons c t =>
    have hl : l = t.reverse ++ [c] := by
      have := congrArg List.reverse hr
      simpa using this
    have hc : c ≠ '/' := h t.reverse c hl
    rw [List.dropWhile_cons_of_neg (by simpa using hc)]
    rw [← hr]
    simp

/-! ### URL normalization: stage lemmas -/

lemma lowerChars_fixed (l : List Char) (h : ∀ c ∈ l, lowerChar c = c) :
    lowerChars l = l := by
  induction l with
  | nil => rfl
  | cons x xs ih =>
    show lowerChar x :: lowerChars xs = x :: xs
    rw [h x (List.mem_cons_self _ _),
      ih (fun c hc => h c (List.mem_cons_of_mem _ hc))]

lemma urlsplitScheme_canonical (s rest : List Char)
    (hs : ∃ c s', s = c :: s' ∧ c.isAlpha = true)
    (hchars : ∀ c ∈ s, isSchemeChar c = true)
    (hlower : ∀ c ∈ s, lowerChar c = c) :
    urlsplitScheme (s ++ ':' :: rest) = (s, rest) := by
  obtain ⟨c, s', rfl, halpha⟩ := hs
  have hall : (c :: s').all isSchemeChar = true :=
    List.all_eq_true.mpr (fun x hx => hchars x hx)
  have hbreak : breakAtFirst (· == ':') ((c :: s') ++ ':' :: rest)
      = some (c :: s', rest) := by
    refine breakAtFirst_of_append _ _ _ _ ?_ (by simp)
    intro x hx
    exact beq_eq_false_iff_ne.mpr (isSchemeChar_ne_colon x (hchars x hx))
  unfold urlsplitScheme
  rw [hbreak]
  show (if c.isAlpha && (c :: s').all isSchemeChar then
      (lowerChars (c :: s'), rest)
    else ([], (c :: s') ++ ':' :: rest)) = _
  rw [if_pos (by rw [halpha, hall]; rfl)]
  rw [lowerChars_fixed _ hlower]

lemma urlsplitNetloc_canonical (n p : List Char)
    (hn : ∀ c ∈ n, c ≠ '/' ∧ c ≠ '?' ∧ c ≠ '#')
    (hp : p = [] ∨ ∃ t, p = '/' :: t) :
    urlsplitNetloc ('/' :: '/' :: (n ++ p)) = (n, p) := by
  show splitWhile (fun c => !(c == '/' || c == '?' || c == '#')) (n ++ p)
      = (n, p)
  refine splitWhile_of_append _ _ _ ?_ ?_
  · intro x hx
    rcases hn x hx with ⟨h1, h2, h3⟩
    simp [h1, h2, h3]
  · rcases hp with rfl | ⟨t, rfl⟩
    · exact Or.inl rfl
    · exact Or.inr ⟨'/', t, rfl, by simp⟩

/-- Projection form of `urlsplitChars` (structure eta makes the pair
destructurings definitional). -/
lemma urlsplitChars_pipeline (url0 : List Char) :
    urlsplitChars url0 =
      ⟨(urlsplitScheme (url0.filter (fun c => !isUnsafeUrlChar c))).1,
       (urlsplitNetloc
         (urlsplitScheme (url0.filter (fun c => !isUnsafeUrlChar c))).2).1,
       (splitOnChar '?' (splitOnChar '#' (urlsplitNetloc
         (urlsplitScheme
           (url0.filter (fun c => !isUnsafeUrlChar c))).2).2).1).1,
       [],
       (splitOnChar '?' (splitOnChar '#' (urlsplitNetloc
         (urlsplitScheme
           (url0.filter (fun c => !isUnsafeUrlChar c))).2).2).1).2,
       (splitOnChar '#' (urlsplitNetloc
         (urlsplitScheme
           (url0.filter (fun c => !isUnsafeUrlChar c))).2).2).2⟩ := rfl

lemma urlsplitChars_canonical (s n p : List Char)
    (hs : ∃ c s', s = c :: s' ∧ c.isAlpha = true)
    (hchars : ∀ c ∈ s, isSchemeChar c = true)
    (hlower : ∀ c ∈ s, lowerChar c = c)
    (hn : ∀ c ∈ n, c ≠ '/' ∧ c ≠ '?' ∧ c ≠ '#')
    (hp : p = [] ∨ ∃ t, p = '/' :: t)
    (hpc : ∀ c ∈ p, c ≠ '?' ∧ c ≠ '#')
    (hsafe : ∀ c ∈ s ++ ':' :: '/' :: '/' :: (n ++ p),
      isUnsafeUrlChar c = false) :
    urlsplitChars (s ++ ':' :: '/' :: '/' :: (n ++ p))
      = ⟨s, n, p, [], [], []⟩ := by
  have hfil : (s ++ ':' :: '/' :: '/' :: (n ++ p)).filter
      (fun c => !isUnsafeUrlChar c) = s ++ ':' :: '/' :: '/' :: (n ++ p) :=
    List.filter_eq_self.mpr (fun a ha => by simp [hsafe a ha])
  have h1 := urlsplitScheme_canonical s ('/' :: '/' :: (n ++ p)) hs hchars hlower
  have h2 := urlsplitNetloc_canonical n p hn hp
  have h3 := splitOnChar_of_not_mem '#' p (fun c hc => (hpc c hc).2)
  have h4 := splitOnChar_of_not_mem '?' p (fun c hc => (hpc c hc).1)
  rw [urlsplitChars_pipeline, hfil]
  simp only [h1, h2, h3, h4]

lemma urlsplitScheme_shape (url : List Char) :
    (∀ x ∈ (urlsplitScheme url).1, ∃ y, y ∈ url ∧ x = lowerChar y) ∧
    (((urlsplitScheme url).1 = [] ∧ (urlsplitScheme url).2 = url) ∨
    ((∃ c s', (urlsplitScheme url).1 = c :: s' ∧ c.isAlpha = true) ∧
     (∀ c ∈ (urlsplitScheme url).1, isSchemeChar c = true) ∧
     (∀ c ∈ (urlsplitScheme url).1, lowerChar c = c) ∧
     (∀ c ∈ (urlsplitScheme url).2, c ∈ url))) := by
  cases hb : breakAtFirst (· == ':') url with
  | none =>
    have he : urlsplitScheme url = ([], url) := by
      unfold urlsplitScheme
      rw [hb]
    rw [he]
    exact ⟨by simp, Or.inl ⟨rfl, rfl⟩⟩
  | some ab =>
    obtain ⟨a, b⟩ := ab
    cases a with
    | nil =>
      have he : urlsplitScheme url = ([], url) := by
        unfold urlsplitScheme
        rw [hb]
      rw [he]
      exact ⟨by simp, Or.inl ⟨rfl, rfl⟩⟩
    | cons c pre =>
      by_cases hcond : (c.isAlpha && (c :: pre).all isSchemeChar) = true
      · have he : urlsplitScheme url = (lowerChars (c :: pre), b) := by
          unfold urlsplitScheme
          rw [hb]
          show (if c.isAlpha && (c :: pre).all isSchemeChar then
              (lowerChars (c :: pre), b)
            else ([], url)) = _
          rw [if_pos hcond]
        rw [he]
        rw [Bool.and_eq_true] at hcond
        obtain ⟨halpha, hall⟩ := hcond
        rcases (breakAtFirst_eq_some _ url (c :: pre) b hb).2
          with ⟨d, _, hdec⟩
        constructor
        · intro x hx
          rcases List.mem_map.mp hx with ⟨y, hy, rfl⟩
          refine ⟨y, ?_, rfl⟩
          rw [hdec]
          exact List.mem_append_left _ hy
        right
        refine ⟨⟨lowerChar c, lowerChars pre, rfl, isAlpha_lowerChar c halpha⟩,
          ?_, ?_, ?_⟩
        · intro x hx
          rcases List.mem_map.mp hx with ⟨y, hy, rfl⟩
          exact isSchemeChar_lowerChar y (List.all_eq_true.mp hall y hy)
        · intro x hx
          rcases List.mem_map.mp hx with ⟨y, hy, rfl⟩
          exact lowerChar_idem y
        · intro x hx
          rw [hdec]
          exact List.mem_append_right _ (List.mem_cons_of_mem _ hx)
      · have he : urlsplitScheme url = ([], url) := by
          unfold urlsplitScheme
          rw [hb]
          show (if c.isAlpha && (c :: pre).all isSchemeChar then
              (lowerChars (c :: pre), b)
            else ([], url)) = _
          rw [if_neg hcond]
        rw [he]
        exact ⟨by simp, Or.inl ⟨rfl, rfl⟩⟩

lemma urlsplitNetloc_shape (rest : List Char) :
    (∀ c ∈ (urlsplitNetloc rest).1, c ≠ '/' ∧ c ≠ '?' ∧ c ≠ '#') ∧
    (∀ c ∈ (urlsplitNetloc rest).1, c ∈ rest) ∧
    (∀ c ∈ (urlsplitNetloc rest).2, c ∈ rest) := by
  unfold urlsplitNetloc
  split
  · next r =>
    cases hs : splitWhile (fun c => !(c == '/' || c == '?' || c == '#')) r with
    | mk a b =>
      rcases splitWhile_eq _ r a b hs with ⟨hq, hdec, _⟩
      refine ⟨?_, ?_, ?_⟩
      · intro c hc
        have hqx := hq c hc
        simp only [Bool.not_eq_eq_eq_not, Bool.not_true, Bool.or_eq_false_iff,
          beq_eq_false_iff_ne] at hqx
        exact ⟨hqx.1.1, hqx.1.2, hqx.2⟩
      · intro c hc
        have : c ∈ r := by
          rw [hdec]
          exact List.mem_append_left _ hc
        exact List.mem_cons_of_mem _ (List.mem_cons_of_mem _ this)
      · intro c hc
        have : c ∈ r := by
          rw [hdec]
          exact List.mem_append_right _ hc
        exact List.mem_cons_of_mem _ (List.mem_cons_of_mem _ this)
  · exact ⟨by simp, by simp, fun c hc => hc⟩

lemma splitOnChar_shape (ch : Char) (l : List Char) :
    (∀ c ∈ (splitOnChar ch l).1, c ≠ ch) ∧
    (∀ c ∈ (splitOnChar ch l).1, c ∈ l) := by
  cases hb : breakAtFirst (· == ch) l with
  | none =>
    have he : splitOnChar ch l = (l, []) := by
      unfold splitOnChar
      rw [hb]
    rw [he]
    constructor
    · intro c hc
      simpa using breakAtFirst_eq_none _ _ hb c hc
    · exact fun c hc => hc
  | some ab =>
    obtain ⟨a, b⟩ := ab
    have he : splitOnChar ch l = (a, b) := by
      unfold splitOnChar
      rw [hb]
    rw [he]
    rcases breakAtFirst_eq_some _ l a b hb with ⟨hfa, d, _, hdec⟩
    constructor
    · intro c hc
      simpa using hfa c hc
    · intro c hc
      rw [hdec]
      exact List.mem_append_left _ hc

/-! ### URL normalization: `urlparse` level -/

/-- Projection form of `urlparseChars`. -/
lemma urlparseChars_eq (l : List Char) :
    urlparseChars l =
      if String.mk (urlsplitChars l).scheme ∈ uses_params ∧
          ';' ∈ (urlsplitChars l).path then
        ⟨(urlsplitChars l).scheme, (urlsplitChars l).netloc,
         (splitparams (urlsplitChars l).path).1,
         (splitparams (urlsplitChars l).path).2,
         (urlsplitChars l).query, (urlsplitChars l).fragment⟩
      else urlsplitChars l := rfl

lemma splitparams_subset (l : List Char) :
    ∀ c ∈ (splitparams l).1, c ∈ l := by
  unfold splitparams
  cases hb : breakAtFirst (· == '/') l.reverse with
  | none =>
    cases hb2 : breakAtFirst (· == ';') l with
    | none => exact fun c hc => hc
    | some ab =>
      obtain ⟨a, b⟩ := ab
      rcases breakAtFirst_eq_some _ l a b hb2 with ⟨_, d, _, hdec⟩
      intro c hc
      rw [hdec]
      exact List.mem_append_left _ hc
  | some ab =>
    obtain ⟨revSeg, revPre⟩ := ab
    cases hb2 : breakAtFirst (· == ';') revSeg.reverse with
    | none =>
      intro c hc
      have hc' : c ∈ ((match breakAtFirst (· == ';') revSeg.reverse with
          | some (a, b) => (revPre.reverse ++ '/' :: a, b)
          | none => (l, ([] : List Char)))).1 := hc
      rw [hb2] at hc'
      exact hc'
    | some ab2 =>
      obtain ⟨a, b⟩ := ab2
      rcases breakAtFirst_eq_some _ l.reverse revSeg revPre hb
        with ⟨_, d, hd, hdec⟩
      rcases breakAtFirst_eq_some _ revSeg.reverse a b hb2
        with ⟨_, e, _, hdec2⟩
      have hl : l = revPre.reverse ++ d :: revSeg.reverse := by
        have h := congrArg List.reverse hdec
        rw [List.reverse_reverse] at h
        rw [h]
        simp
      intro c hcm
      have hc : c ∈ ((match breakAtFirst (· == ';') revSeg.reverse with
          | some (a, b) => (revPre.reverse ++ '/' :: a, b)
          | none => (l, ([] : List Char)))).1 := hcm
      rw [hb2] at hc
      rcases List.mem_append.mp hc with hc | hc
      · rw [hl]
        exact List.mem_append_left _ hc
      · rcases List.mem_cons.mp hc with rfl | hc
        · rw [hl]
          have hd' : d = '/' := by simpa using hd
          rw [← hd']
          exact List.mem_append_right _ (List.mem_cons_self _ _)
        · rw [hl]
          refine List.mem_append_right _ (List.mem_cons_of_mem _ ?_)
          rw [hdec2]
          exact List.mem_append_left _ hc

lemma urlparseChars_canonical (s n p : List Char)
    (hs : ∃ c s', s = c :: s' ∧ c.isAlpha = true)
    (hchars : ∀ c ∈ s, isSchemeChar c = true)
    (hlower : ∀ c ∈ s, lowerChar c = c)
    (hn : ∀ c ∈ n, c ≠ '/' ∧ c ≠ '?' ∧ c ≠ '#')
    (hp : p = [] ∨ ∃ t, p = '/' :: t)
    (hpc : ∀ c ∈ p, c ≠ '?' ∧ c ≠ '#')
    (hsemi : ∀ c ∈ p, c ≠ ';')
    (hsafe : ∀ c ∈ s ++ ':' :: '/' :: '/' :: (n ++ p),
      isUnsafeUrlChar c = false) :
    urlparseChars (s ++ ':' :: '/' :: '/' :: (n ++ p))
      = ⟨s, n, p, [], [], []⟩ := by
  rw [urlparseChars_eq,
    urlsplitChars_canonical s n p hs hchars hlower hn hp hpc hsafe]
  rw [if_neg]
  intro hcond
  exact hsemi ';' hcond.2 rfl

lemma urlsplitChars_shape (l : List Char) :
    ((urlsplitChars l).scheme = [] ∨
      ((∃ c s', (urlsplitChars l).scheme = c :: s' ∧ c.isAlpha = true) ∧
       (∀ c ∈ (urlsplitChars l).scheme, isSchemeChar c = true) ∧
       (∀ c ∈ (urlsplitChars l).scheme, lowerChar c = c))) ∧
    (∀ c ∈ (urlsplitChars l).netloc, c ≠ '/' ∧ c ≠ '?' ∧ c ≠ '#') ∧
    (∀ c ∈ (urlsplitChars l).path, c ≠ '?' ∧ c ≠ '#') ∧
    (∀ c ∈ (urlsplitChars l).scheme, isUnsafeUrlChar c = false) ∧
    (∀ c ∈ (urlsplitChars l).netloc, isUnsafeUrlChar c = false) ∧
    (∀ c ∈ (urlsplitChars l).path, isUnsafeUrlChar c = false) := by
  have hsafe0 : ∀ c ∈ l.filter (fun c => !isUnsafeUrlChar c),
      isUnsafeUrlChar c = false := by
    intro c hc
    have := (List.mem_filter.mp hc).2
    simpa using this
  obtain ⟨hmap, hsch⟩ :=
    urlsplitScheme_shape (l.filter (fun c => !isUnsafeUrlChar c))
  have hrest_sub : ∀ c ∈ (urlsplitScheme
      (l.filter (fun c => !isUnsafeUrlChar c))).2,
      c ∈ l.filter (fun c => !isUnsafeUrlChar c) := by
    rcases hsch with ⟨_, h2⟩ | ⟨_, _, _, h2⟩
    · intro c hc
      rw [h2] at hc
      exact hc
    · exact h2
  obtain ⟨hnet1, hnet1sub, hnet2sub⟩ :=
    urlsplitNetloc_shape
      ((urlsplitScheme (l.filter (fun c => !isUnsafeUrlChar c))).2)
  obtain ⟨hfrag1, hfrag1sub⟩ :=
    splitOnChar_shape '#'
      ((urlsplitNetloc
        ((urlsplitScheme (l.filter (fun c => !isUnsafeUrlChar c))).2)).2)
  obtain ⟨hq1, hq1sub⟩ :=
    splitOnChar_shape '?'
      ((splitOnChar '#'
        ((urlsplitNetloc
          ((urlsplitScheme (l.filter (fun c => !isUnsafeUrlChar c))).2)).2)).1)
  rw [urlsplitChars_pipeline]
  refine ⟨?_, ?_, ?_, ?_, ?_, ?_⟩
  · rcases hsch with ⟨h1, _⟩ | ⟨hex, hchars, hlow, _⟩
    · exact Or.inl h1
    · exact Or.inr ⟨hex, hchars, hlow⟩
  · exact hnet1
  · intro c hc
    exact ⟨hq1 c hc, hfrag1 c (hq1sub c hc)⟩
  · intro c hc
    rcases hmap c hc with ⟨y, hy, rfl⟩
    exact lowerChar_unsafe y (hsafe0 y hy)
  · intro c hc
    exact hsafe0 c (hrest_sub c (hnet1sub c hc))
  · intro c hc
    exact hsafe0 c (hrest_sub c (hnet2sub c (hfrag1sub c (hq1sub c hc))))

lemma urlparseChars_shape (l : List Char) :
    ((urlparseChars l).scheme = [] ∨
      ((∃ c s', (urlparseChars l).scheme = c :: s' ∧ c.isAlpha = true) ∧
       (∀ c ∈ (urlparseChars l).scheme, isSchemeChar c = true) ∧
       (∀ c ∈ (urlparseChars l).scheme, lowerChar c = c))) ∧
    (∀ c ∈ (urlparseChars l).netloc, c ≠ '/' ∧ c ≠ '?' ∧ c ≠ '#') ∧
    (∀ c ∈ (urlparseChars l).path, c ≠ '?' ∧ c ≠ '#') ∧
    (∀ c ∈ (urlparseChars l).scheme, isUnsafeUrlChar c = false) ∧
    (∀ c ∈ (urlparseChars l).netloc, isUnsafeUrlChar c = false) ∧
    (∀ c ∈ (urlparseChars l).path, isUnsafeUrlChar c = false) := by
  obtain ⟨hS, hN, hP, hSu, hNu, hPu⟩ := urlsplitChars_shape l
  rw [urlparseChars_eq]
  by_cases hc : String.mk (urlsplitChars l).scheme ∈ uses_params ∧
      ';' ∈ (urlsplitChars l).path
  · rw [if_pos hc]
    refine ⟨hS, hN, ?_, hSu, hNu, ?_⟩
    · intro c hcm
      exact hP c (splitparams_subset _ c hcm)
    · intro c hcm
      exact hPu c (splitparams_subset _ c hcm)
  · rw [if_neg hc]
    exact ⟨hS, hN, hP, hSu, hNu, hPu⟩

/-! ### URL normalization: the path-fixing step and idempotence -/


/-- `_normalize_url` in terms of `urlparseChars` and `pathFix`. -/
lemma normalize_url_eq (u : String) :
    normalize_url u = String.mk (lowerChars
      ((urlparseChars u.data).scheme ++ ':' :: '/' :: '/' ::
        ((urlparseChars u.data).netloc ++ pathFix (urlparseChars u.data).path)))
    := by
  show String.mk (lowerChars
      (((urlparseChars u.data).scheme ++
        ':' :: '/' :: '/' :: (urlparseChars u.data).netloc) ++
        pathFix (urlparseChars u.data).path)) = _
  rw [List.append_assoc]
  rfl

lemma pathFix_head (p : List Char)
    (hp : p = [] ∨ ∃ t, p = '/' :: t) :
    ∃ t, pathFix p = '/' :: t := by
  rcases hp with rfl | ⟨t, rfl⟩
  · exact ⟨[], rfl⟩
  · unfold pathFix
    rcases hrs : rstripSlash ('/' :: t) with _ | ⟨x, xs⟩
    · exact ⟨[], rfl⟩
    · rcases rstripSlash_decomp ('/' :: t) with ⟨j, hj, _⟩
      rw [hrs] at hj
      have hx : x = '/' := by
        have := congrArg List.head? hj
        simpa using this.symm
      exact ⟨xs, by rw [hx]⟩

lemma pathFix_subset (p : List Char) :
    ∀ c ∈ pathFix p, c ∈ p ∨ c = '/' := by
  unfold pathFix
  rcases hrs : rstripSlash p with _ | ⟨x, xs⟩
  · intro c hc
    rw [List.mem_singleton] at hc
    exact Or.inr hc
  · intro c hc
    rcases rstripSlash_decomp p with ⟨j, hj, _⟩
    rw [hrs] at hj
    left
    rw [hj]
    exact List.mem_append_left _ hc

lemma pathFix_eq_self (q : List Char) (hq : q ≠ [])
    (h : rstripSlash q = q) : pathFix q = q := by
  unfold pathFix
  rw [h]
  cases q with
  | nil => exact absurd rfl hq
  | cons a as => rfl

lemma pathFix_shape (p : List Char) :
    pathFix p = ['/'] ∨ ∃ t c, pathFix p = t ++ [c] ∧ c ≠ '/' := by
  unfold pathFix
  rcases rstripSlash_shape p with h | ⟨c, t, h, hc⟩
  · rw [h]
    exact Or.inl rfl
  · rw [h]
    right
    refine ⟨t, c, ?_, hc⟩
    cases ht : t ++ [c] with
    | nil => simp at ht
    | cons a as => rfl

lemma lowerChars_pathFix_fix (p : List Char) :
    pathFix (lowerChars (pathFix p)) = lowerChars (pathFix p) := by
  rcases pathFix_shape p with h | ⟨t, c, h, hc⟩
  · rw [h]
    rfl
  · rw [h]
    have hconc : lowerChars (t ++ [c]) = lowerChars t ++ [lowerChar c] := by
      unfold lowerChars
      rw [List.map_append]
      rfl
    rw [hconc]
    have hlast : ∀ t' c', lowerChars t ++ [lowerChar c] = t' ++ [c'] →
        c' ≠ '/' := by
      intro t' c' heq hslash
      subst hslash
      have h1 : (lowerChars t ++ [lowerChar c]).getLast? = some (lowerChar c) :=
        List.getLast?_concat _
      have h2 : (t' ++ ['/']).getLast? = some '/' := List.getLast?_concat _
      rw [heq, h2] at h1
      have : lowerChar c = '/' := by
        exact (Option.some.inj h1).symm
      exact hc ((lowerChar_eq_iff c '/' (by left; decide)).mp this)
    have hrs : rstripSlash (lowerChars t ++ [lowerChar c])
        = lowerChars t ++ [lowerChar c] :=
      rstripSlash_eq_self _ (fun t' c' heq => hlast t' c' heq)
    exact pathFix_eq_self _ (by simp) hrs

lemma mem_lowerChars {c : Char} {l : List Char} (h : c ∈ lowerChars l) :
    ∃ y, y ∈ l ∧ c = lowerChar y := by
  unfold lowerChars at h
  rcases List.mem_map.mp h with ⟨y, hy, he⟩
  exact ⟨y, hy, he.symm⟩

/-- Restricted idempotence of `_normalize_url`: if the input parses with a
nonempty scheme, a path that is empty or absolute, and no `;` in the path,
normalizing twice equals normalizing once. -/
lemma normalize_url_idem_of_parse (u : String)
    (hscheme : (urlparseChars u.data).scheme ≠ [])
    (hpath : (urlparseChars u.data).path = [] ∨
      ∃ t, (urlparseChars u.data).path = '/' :: t)
    (hsemi : ∀ c ∈ (urlparseChars u.data).path, c ≠ ';') :
    normalize_url (normalize_url u) = normalize_url u := by
  obtain ⟨S, N, p, hSe, hNe, hpe⟩ :
      ∃ S N p, (urlparseChars u.data).scheme = S ∧
        (urlparseChars u.data).netloc = N ∧
        (urlparseChars u.data).path = p :=
    ⟨_, _, _, rfl, rfl, rfl⟩
  obtain ⟨hS, hN, hPqh, hSu, hNu, hPu⟩ := urlparseChars_shape u.data
  rw [hSe] at hS hSu hscheme
  rw [hNe] at hN hNu
  rw [hpe] at hPqh hPu hpath hsemi
  rcases hS with hS0 | ⟨⟨c0, s0, hcons, halpha⟩, hchars, hlow⟩
  · exact absurd hS0 hscheme
  -- `normalize_url u` in canonical component form
  have hF2 : normalize_url u = String.mk
      (S ++ ':' :: '/' :: '/' ::
        (lowerChars N ++ lowerChars (pathFix p))) := by
    rw [normalize_url_eq u, hSe, hNe, hpe]
    congr 1
    simp only [lowerChars, List.map_append, List.map_cons]
    rw [show lowerChar ':' = ':' from by decide,
      show lowerChar '/' = '/' from by decide,
      show List.map lowerChar S = S from lowerChars_fixed S hlow]
  -- the re-parsed components
  have hhead : ∃ t, lowerChars (pathFix p) = '/' :: t := by
    obtain ⟨t, ht⟩ := pathFix_head p hpath
    refine ⟨lowerChars t, ?_⟩
    rw [ht]
    show lowerChar '/' :: lowerChars t = '/' :: lowerChars t
    rw [show lowerChar '/' = '/' from by decide]
  have hn' : ∀ c ∈ lowerChars N, c ≠ '/' ∧ c ≠ '?' ∧ c ≠ '#' := by
    intro c hc
    rcases mem_lowerChars hc with ⟨y, hy, rfl⟩
    obtain ⟨h1, h2, h3⟩ := hN y hy
    exact ⟨fun he => h1 ((lowerChar_eq_iff y '/' (by left; decide)).mp he),
      fun he => h2 ((lowerChar_eq_iff y '?' (by left; decide)).mp he),
      fun he => h3 ((lowerChar_eq_iff y '#' (by left; decide)).mp he)⟩
  have hpc' : ∀ c ∈ lowerChars (pathFix p), c ≠ '?' ∧ c ≠ '#' := by
    intro c hc
    rcases mem_lowerChars hc with ⟨y, hy, rfl⟩
    rcases pathFix_subset p y hy with hyp | rfl
    · obtain ⟨h1, h2⟩ := hPqh y hyp
      exact ⟨fun he => h1 ((lowerChar_eq_iff y '?' (by left; decide)).mp he),
        fun he => h2 ((lowerChar_eq_iff y '#' (by left; decide)).mp he)⟩
    · exact ⟨by decide, by decide⟩
  have hsemi' : ∀ c ∈ lowerChars (pathFix p), c ≠ ';' := by
    intro c hc
    rcases mem_lowerChars hc with ⟨y, hy, rfl⟩
    rcases pathFix_subset p y hy with hyp | rfl
    · exact fun he =>
        hsemi y hyp ((lowerChar_eq_iff y ';' (by left; decide)).mp he)
    · exact by decide
  have hsafeL : ∀ c ∈ S ++ ':' :: '/' :: '/' ::
      (lowerChars N ++ lowerChars (pathFix p)),
      isUnsafeUrlChar c = false := by
    intro c hc
    rcases List.mem_append.mp hc with hc | hc
    · exact hSu c hc
    · rcases List.mem_cons.mp hc with rfl | hc
      · decide
      · rcases List.mem_cons.mp hc with rfl | hc
        · decide
        · rcases List.mem_cons.mp hc with rfl | hc
          · decide
          · rcases List.mem_append.mp hc with hc | hc
            · rcases mem_lowerChars hc with ⟨y, hy, rfl⟩
              exact lowerChar_unsafe y (hNu y hy)
            · rcases mem_lowerChars hc with ⟨y, hy, rfl⟩
              rcases pathFix_subset p y hy with hyp | rfl
              · exact lowerChar_unsafe y (hPu y hyp)
              · decide
  have hcanon := urlparseChars_canonical S (lowerChars N)
    (lowerChars (pathFix p)) ⟨c0, s0, hcons, halpha⟩ hchars hlow hn'
    (Or.inr hhead) hpc' hsemi' hsafeL
  have hfixedL : lowerChars (S ++ ':' :: '/' :: '/' ::
      (lowerChars N ++ lowerChars (pathFix p)))
      = S ++ ':' :: '/' :: '/' ::
        (lowerChars N ++ lowerChars (pathFix p)) := by
    refine lowerChars_fixed _ ?_
    intro c hc
    rcases List.mem_append.mp hc with hc | hc
    · exact hlow c hc
    · rcases List.mem_cons.mp hc with rfl | hc
      · decide
      · rcases List.mem_cons.mp hc with rfl | hc
        · decide
        · rcases List.mem_cons.mp hc with rfl | hc
          · decide
          · rcases List.mem_append.mp hc with hc | hc
            · rcases mem_lowerChars hc with ⟨y, _, rfl⟩
              exact lowerChar_idem y
            · rcases mem_lowerChars hc with ⟨y, _, rfl⟩
              exact lowerChar_idem y
  rw [hF2, normalize_url_eq]
  have hcanon' : urlparseChars (String.mk (S ++ ':' :: '/' :: '/' ::
      (lowerChars N ++ lowerChars (pathFix p)))).data
      = (⟨S, lowerChars N, lowerChars (pathFix p), [], [], []⟩ : UrlParts) :=
    hcanon
  rw [hcanon']
  show String.mk (lowerChars (S ++ ':' :: '/' :: '/' ::
      (lowerChars N ++ pathFix (lowerChars (pathFix p)))))
    = String.mk (S ++ ':' :: '/' :: '/' ::
      (lowerChars N ++ lowerChars (pathFix p)))
  rw [lowerChars_pathFix_fix p, hfixedL]

lemma lookup_append_single {β : Type} (l : List (String × β)) (k : String)
    (v : β) (h : l.lookup k = none) : (l ++ [(k, v)]).lookup k = some v := by
  induction l with
  | nil => simp
  | cons p rest ih =>
    obtain ⟨a, b⟩ := p
    rw [List.cons_append]
    rw [show ((a, b) :: (rest ++ [(k, v)])).lookup k
        = cond (k == a) (some b) ((rest ++ [(k, v)]).lookup k) from rfl]
    rw [show ((a, b) :: rest).lookup k
        = cond (k == a) (some b) (rest.lookup k) from rfl] at h
    cases hbeq : (k == a) with
    | true => rw [hbeq] at h; simp at h
    | false =>
      rw [hbeq] at h
      simp only [cond_false] at h ⊢
      exact ih h


lemma chain_crawl_eval :
    crawl chainConfig ["https://site.test/"] =
      ([⟨"https://site.test/", "root", "t", "html-root", "now",
          "https://site.test", "website"⟩,
        ⟨"https://site.test/child", "child", "t", "html-child", "now",
          "https://site.test", "website"⟩],
       [⟨"https://site.test/", .crawling, 0⟩,
        ⟨"https://site.test/", .success, 0⟩,
        ⟨"https://site.test/child", .crawling, 1⟩,
        ⟨"https://site.test/child", .success, 1⟩]) := by
  have h0 : crawl chainConfig ["https://site.test/"]
      = crawlLoop chainConfig [("https://site.test/", 0)] [] 0 [] [] := rfl
  rw [h0]
  rw [crawlLoop_extract_some chainConfig "https://site.test/" 0 [] [] 0 [] []
    ⟨"https://site.test/", "root", "t", "html-root"⟩
    (by decide) (by decide) (by decide) (by decide)]
  show crawlLoop chainConfig [("https://site.test/child", 1)]
      ["https://site.test/"] 1
      [⟨"https://site.test/", "root", "t", "html-root", "now",
        "https://site.test", "website"⟩]
      [⟨"https://site.test/", .crawling, 0⟩,
       ⟨"https://site.test/", .success, 0⟩] = _
  rw [crawlLoop_extract_some chainConfig "https://site.test/child" 1 []
    ["https://site.test/"] 1
    [⟨"https://site.test/", "root", "t", "html-root", "now",
      "https://site.test", "website"⟩]
    [⟨"https://site.test/", .crawling, 0⟩,
     ⟨"https://site.test/", .success, 0⟩]
    ⟨"https://site.test/child", "child", "t", "html-child"⟩
    (by decide) (by decide) (by decide) (by decide)]
  show crawlLoop chainConfig [] _ 2 _ _ = _
  rw [crawlLoop_nil]
  rfl

/-! ## Claim theorems -/

/-- **C1**: for every crawler configuration (any `max_pages = N`, any robots,
extraction and link oracles) and any seed list, a `crawl` run processes —
counts against the page budget and submits to extraction, i.e. emits a
`crawling` progress event for — at most `N` URLs, regardless of how many
targets remain in or are added to the frontier. -/
theorem C1_page_budget (cfg : CrawlConfig) (start_urls : List String) :
    (crawlingEvents (crawl cfg start_urls).2).length ≤ cfg.max_pages := by
  have h := crawlLoop_budget cfg
    ((start_urls.map normalize_url).map fun u => (u, 0)) [] 0 [] []
  simpa [crawl, crawlingEvents] using h

/-- **C2**: in a `crawl` run no normalized URL is processed (sent to
extraction) more than once: the URLs of the `crawling` events are pairwise
distinct, for every configuration and seed list — in particular when the
same URL is discovered along several link paths or appears among the seeds
in several variants normalizing to the same string. -/
theorem C2_visited_once (cfg : CrawlConfig) (start_urls : List String) :
    ((crawlingEvents (crawl cfg start_urls).2).map CrawlEvent.url).Nodup := by
  have h := crawlLoop_processed_nodup cfg
    ((start_urls.map normalize_url).map fun u => (u, 0)) [] 0 [] []
    (by simp [crawlingEvents]) (by simp [crawlingEvents])
  simpa [crawl] using h

/-- **C9**: the frontier is consumed front-first with discovered links
appended at the back, so the depth sequence of the processed targets
(`crawling` events, in processing order) is nondecreasing: every page
processed at depth `d` precedes every page processed at depth `d + 1`
(level-order, breadth-first traversal). -/
theorem C9_breadth_first (cfg : CrawlConfig) (start_urls : List String) :
    List.Sorted (· ≤ ·)
      ((crawlingEvents (crawl cfg start_urls).2).map CrawlEvent.depth) := by
  have hzero : ∀ b ∈ (((start_urls.map normalize_url).map
      fun u => (u, 0)).map Prod.snd), b = 0 := by
    intro b hb
    rcases List.mem_map.mp hb with ⟨p, hp, rfl⟩
    rcases List.mem_map.mp hp with ⟨u, _, rfl⟩
    rfl
  have h := crawlLoop_depths_sorted cfg
    ((start_urls.map normalize_url).map fun u => (u, 0)) [] 0 [] []
    (List.pairwise_of_forall_mem_list fun a ha b hb => by
      rw [hzero a ha, hzero b hb])
    (fun a ha b hb => by rw [hzero a ha, hzero b hb]; omega)
    (by simp)
    (by simp)
  have hsub : ((crawlingEvents (crawl cfg start_urls).2).map CrawlEvent.depth).Sublist
      ((crawl cfg start_urls).2.map CrawlEvent.depth) :=
    List.Sublist.map _ (List.filter_sublist _)
  have hall : List.Sorted (· ≤ ·)
      ((crawl cfg start_urls).2.map CrawlEvent.depth) := by
    simpa [crawl] using h
  exact List.Pairwise.sublist hsub hall

/-- **C3**: targets whose depth exceeds `max_depth` are never processed —
every progress event (in particular every `crawling` and `success` event,
hence every returned page) is at depth `≤ max_depth`; links are enqueued at
the discovering page's depth plus one, so in the chain scenario
(seed → child → grand, `maxDepth = 1`) the crawl returns exactly the seed
and its direct child and never touches the grandchild. -/
theorem C3_depth_bound (cfg : CrawlConfig) (start_urls : List String) :
    (∀ e ∈ (crawl cfg start_urls).2, e.depth ≤ cfg.max_depth) ∧
    (crawl chainConfig ["https://site.test/"]).1.map CrawlResult.url
      = ["https://site.test/", "https://site.test/child"] ∧
    (∀ e ∈ (crawl chainConfig ["https://site.test/"]).2,
      e.url ≠ "https://site.test/grand") := by
  refine ⟨?_, ?_, ?_⟩
  · have h := crawlLoop_depth_le cfg
      ((start_urls.map normalize_url).map fun u => (u, 0)) [] 0 [] [] (by simp)
    simpa [crawl] using h
  · rw [chain_crawl_eval]
    rfl
  · rw [chain_crawl_eval]
    decide

set_option maxRecDepth 100000 in
/-- **C5 counterexample**: the claim says the dynamic (Playwright) path is
attempted exactly when the static result is absent or shorter than 100
characters.  With a static result of 150 characters (well above 100) and
the headless capability available, the code still attempts the dynamic path
(its guard is `len < 200`, web_scraper.py:190) and uses the dynamic result
in place of the sufficient static one. -/
theorem C5_fallback_counterexample :
    (100 ≤ (String.mk (List.replicate 150 'a')).length) ∧
    extract_text_static (fun _ => some "h")
      (fun _ _ => some (String.mk (List.replicate 150 'a')))
      (fun _ => some "t") "u"
      = some ⟨"u", "t", String.mk (List.replicate 150 'a'), "h"⟩ ∧
    playwright_attempted
      (some ⟨"u", "t", String.mk (List.replicate 150 'a'), "h"⟩) true true
      = true ∧
    extract_text (fun _ => some "h")
      (fun _ _ => some (String.mk (List.replicate 150 'a')))
      (fun _ => some "t")
      (fun _ => .ok (some ⟨"u", "t2", String.mk (List.replicate 500 'b'), "h2"⟩))
      true true "u"
      = some ⟨"u", "t2", String.mk (List.replicate 500 'b'), "h2"⟩ := by
  refine ⟨by decide, by decide, by decide, by decide⟩

/-- **C5 amended**: the dynamic path is attempted exactly when the static
result is absent or its text is shorter than 200 characters (not 100) and
`use_playwright` and `PLAYWRIGHT_AVAILABLE` hold; a static result with at
least 200 characters of text is returned without attempting the dynamic
path.  (The static tier itself already rejects results whose stripped text
is below 100 characters, so an absent static result covers the claim's
40-character example.) -/
theorem C5_fallback_threshold (http_get : String → Option String)
    (trafilatura_extract : String → String → Option String)
    (find_title : String → Option String)
    (playwright_run : String → Except Unit (Option PageData))
    (use_playwright PLAYWRIGHT_AVAILABLE : Bool) (url : String) :
    (playwright_attempted
        (extract_text_static http_get trafilatura_extract find_title url)
        use_playwright PLAYWRIGHT_AVAILABLE = true ↔
      ((extract_text_static http_get trafilatura_extract find_title url = none ∨
        ∃ r, extract_text_static http_get trafilatura_extract find_title url
            = some r ∧ r.text.length < 200) ∧
       use_playwright = true ∧ PLAYWRIGHT_AVAILABLE = true)) ∧
    (∀ r, extract_text_static http_get trafilatura_extract find_title url
        = some r → 200 ≤ r.text.length →
      extract_text http_get trafilatura_extract find_title playwright_run
        use_playwright PLAYWRIGHT_AVAILABLE url = some r) ∧
    (∀ r, extract_text_static http_get trafilatura_extract find_title url
        = some r → 100 ≤ (pyStrip r.text).length) := by
  refine ⟨?_, ?_, ?_⟩
  · cases hs : extract_text_static http_get trafilatura_extract find_title url with
    | none => simp [playwright_attempted]
    | some r =>
      simp only [playwright_attempted, Option.isNone_some, Option.map_some,
        Option.getD_some, Bool.false_or, Bool.and_eq_true, decide_eq_true_eq,
        Option.some.injEq]
      constructor
      · rintro ⟨⟨h2, hu⟩, ha⟩
        exact ⟨Or.inr ⟨r, rfl, h2⟩, hu, ha⟩
      · rintro ⟨h2 | ⟨r', hr', h2⟩, hu, ha⟩
        · exact absurd h2 (by simp)
        · cases hr'
          exact ⟨⟨h2, hu⟩, ha⟩
  · intro r hr h200
    have hatt : playwright_attempted
        (extract_text_static http_get trafilatura_extract find_title url)
        use_playwright PLAYWRIGHT_AVAILABLE = false := by
      rw [hr]
      simp [playwright_attempted, Nat.not_lt.mpr h200]
    rw [extract_text, hatt]
    · simp [hr]
  · intro r hr
    unfold extract_text_static at hr
    split at hr
    · exact absurd hr (by simp)
    · split at hr
      · exact absurd hr (by simp)
      · split at hr
        · exact absurd hr (by simp)
        · rename_i hlt
          obtain rfl := Option.some.inj hr
          exact Nat.le_of_not_lt hlt

set_option maxRecDepth 100000 in
/-- Witness for the amended C5: a 250-character static result is returned
unchanged, without the dynamic result being used. -/
theorem C5_fallback_threshold_witness :
    extract_text (fun _ => some "h")
      (fun _ _ => some (String.mk (List.replicate 250 'a')))
      (fun _ => none)
      (fun _ => .ok (some ⟨"u", "t2", "short", "h2"⟩)) true true "u"
      = some ⟨"u", "u", String.mk (List.replicate 250 'a'), "h"⟩ :=
  (C5_fallback_threshold (fun _ => some "h")
    (fun _ _ => some (String.mk (List.replicate 250 'a'))) (fun _ => none)
    (fun _ => .ok (some ⟨"u", "t2", "short", "h2"⟩)) true true "u").2.1
    ⟨"u", "u", String.mk (List.replicate 250 'a'), "h"⟩ (by decide) (by decide)

/-- **C8**: when the robots.txt fetch for a domain fails on first access,
`_check_robots_txt` answers `true` (fail-open), surfaces a warning, and
caches the "policy unavailable" marker; afterwards every URL under that
domain is answered `true` from the cache, with no warning and no dependence
on the fetch function (no re-fetch), for the rest of the run. -/
theorem C8_robots_fail_open (fetch_robots : String → Option RobotsParser)
    (robots_cache : List (String × Option RobotsParser)) (url : String)
    (hmiss : robots_cache.lookup (get_domain url) = none)
    (hfail : fetch_robots (get_domain url) = none) :
    (check_robots_txt fetch_robots robots_cache url
      = (true, robots_cache ++ [(get_domain url, none)],
         ["Could not fetch robots.txt for " ++ get_domain url])) ∧
    (∀ (fetch2 : String → Option RobotsParser) (url2 : String),
      get_domain url2 = get_domain url →
      check_robots_txt fetch2
          (robots_cache ++ [(get_domain url, none)]) url2
        = (true, robots_cache ++ [(get_domain url, none)], [])) := by
  have hdom : (robots_cache ++ [(get_domain url, none)]).lookup (get_domain url)
      = some (none : Option RobotsParser) :=
    lookup_append_single robots_cache (get_domain url) none hmiss
  constructor
  · simp only [check_robots_txt, hmiss, hfail, hdom]
  · intro fetch2 url2 hd
    simp only [check_robots_txt, hd, hdom]

/-- Witness for C8 on an empty cache with an always-failing fetch. -/
theorem C8_robots_fail_open_witness :
    check_robots_txt (fun _ => none) [] "https://x.test/a"
      = (true, [(get_domain "https://x.test/a", none)],
         ["Could not fetch robots.txt for " ++ get_domain "https://x.test/a"]) :=
  (C8_robots_fail_open (fun _ => none) [] "https://x.test/a" rfl rfl).1

/-- **C4**: a candidate chunk is discarded by `deduplicate_chunks` iff some
already-kept embedding has cosine similarity `≥ threshold` against it
(kept chunks are below threshold against every earlier kept chunk; every
discarded chunk reaches threshold against some earlier kept chunk);
at the default threshold `0.95`, a pair at similarity exactly `0.95`
loses its second element while a pair at similarity `0.9499` is kept
whole. -/
theorem C4_dedup_threshold (chunks : List String) (embs : List (List ℝ))
    (θ : ℝ) (hlen : chunks.length = embs.length) :
    (∀ i ∈ (deduplicate_chunks chunks embs θ).2.2,
      ∀ j ∈ (deduplicate_chunks chunks embs θ).2.2, j < i →
        cosine_similarity (embs.getD i []) (embs.getD j []) < θ) ∧
    (∀ i, i < chunks.length → i ∉ (deduplicate_chunks chunks embs θ).2.2 →
      ∃ j ∈ (deduplicate_chunks chunks embs θ).2.2, j < i ∧
        θ ≤ cosine_similarity (embs.getD i []) (embs.getD j [])) ∧
    cosine_similarity [19,6,1,1,1] [1,0,0,0,0] = 0.95 ∧
    deduplicate_chunks ["x", "y"] [[1,0,0,0,0], [19,6,1,1,1]]
      SIMILARITY_THRESHOLD = (["x"], [[1,0,0,0,0]], [0]) ∧
    cosine_similarity [9499,3125,58,3,1] [1,0,0,0,0] = 0.9499 ∧
    deduplicate_chunks ["x", "y"] [[1,0,0,0,0], [9499,3125,58,3,1]]
      SIMILARITY_THRESHOLD
      = (["x", "y"], [[1,0,0,0,0], [9499,3125,58,3,1]], [0, 1]) := by
  rw [deduplicate_chunks_eq chunks embs θ hlen]
  refine ⟨keptIdx_kept_sound _ _ _,
    fun i hi hni => keptIdx_dropped_complete _ _ _ i hi hni,
    by rw [cosine_boundary_eq]; norm_num,
    dedup_pair_boundary_eval,
    by rw [cosine_below_eq]; norm_num,
    dedup_pair_below_eval⟩

/-- Witness for C4 at a concrete input (similarity exactly `0.95`,
second chunk discarded). -/
theorem C4_dedup_threshold_witness :
    deduplicate_chunks ["x", "y"] [[1,0,0,0,0], [19,6,1,1,1]]
      SIMILARITY_THRESHOLD = (["x"], [[1,0,0,0,0]], [0]) :=
  (C4_dedup_threshold ["x", "y"] [[1,0,0,0,0], [19,6,1,1,1]]
    SIMILARITY_THRESHOLD rfl).2.2.2.1

/-- **C6**: for parallel nonempty inputs, `deduplicate_chunks` always keeps
the first chunk (the kept-index list starts with 0), keeps chunks in their
original relative order (the kept-index list is strictly increasing), and
the returned chunks/embeddings are exactly the input entries at the
returned original indices; on `[A, B, C]` with `B` a near-duplicate of `A`
the output is `[A, C]` with indices `[0, 2]`. -/
theorem C6_first_kept_order (chunks : List String) (embs : List (List ℝ))
    (θ : ℝ) (hlen : chunks.length = embs.length) (hne : chunks ≠ []) :
    (deduplicate_chunks chunks embs θ).2.2.head? = some 0 ∧
    List.Sorted (· < ·) (deduplicate_chunks chunks embs θ).2.2 ∧
    (deduplicate_chunks chunks embs θ).1 =
      (deduplicate_chunks chunks embs θ).2.2.map (fun i => chunks.getD i "") ∧
    (deduplicate_chunks chunks embs θ).2.1 =
      (deduplicate_chunks chunks embs θ).2.2.map (fun i => embs.getD i []) ∧
    deduplicate_chunks ["A", "B", "C"] [[1,0], [1,0], [0,1]]
      SIMILARITY_THRESHOLD = (["A", "C"], [[1,0], [0,1]], [0, 2]) := by
  rw [deduplicate_chunks_eq chunks embs θ hlen]
  exact ⟨keptIdx_head _ _ _ (List.length_pos.mpr hne),
    keptIdx_sorted _ _ _, rfl, rfl, dedup_triple_eval⟩

/-- Witness for C6 at the concrete `[A, B, C]` input. -/
theorem C6_first_kept_order_witness :
    deduplicate_chunks ["A", "B", "C"] [[1,0], [1,0], [0,1]]
      SIMILARITY_THRESHOLD = (["A", "C"], [[1,0], [0,1]], [0, 2]) :=
  (C6_first_kept_order ["A", "B", "C"] [[1,0], [1,0], [0,1]]
    SIMILARITY_THRESHOLD rfl (by simp)).2.2.2.2

/-- **C10**: `embed_web_to_qdrant` called with an empty page list returns
the `ValueError` raised before the `try` block ("No web pages provided for
embedding") and performs no vector-store write (empty upsert list) — it
does not return a chunk count of 0. -/
theorem C10_embed_empty_raises (split_text : String → List String)
    (encode : String → List ℝ) (raw_point_id : String → ℕ → ℕ)
    (collection_name : String) :
    embed_web_to_qdrant split_text encode raw_point_id [] collection_name
      = (Except.error (PyError.valueError "No web pages provided for embedding"),
         []) := rfl

set_option maxRecDepth 100000 in
/-- **C7**: the unrestricted idempotence claim fails.  For the URL
`https://example.com/a;b/` one normalization yields
`https://example.com/a;b`; re-normalizing re-parses it, `urlparse` splits
the `;b` params suffix off the last path segment (the `https` scheme uses
params), and the result `https://example.com/a` differs. -/
theorem C7_normalize_counterexample :
    normalize_url (normalize_url "https://example.com/a;b/")
      ≠ normalize_url "https://example.com/a;b/" := by decide

set_option maxRecDepth 100000 in
/-- **C7** (amended): `_normalize_url` is idempotent for every URL whose
parse has a nonempty scheme, an empty or `/`-initial path, and no `;` in
the path; it strips the query and fragment, removes trailing slashes from
the path (an empty or slash-only path becomes `/`), and lower-cases the
whole result, so `normalize("https://Example.com/a/") =
normalize("https://example.com/a")`. -/
theorem C7_normalize_idempotent :
    (∀ u : String,
      (urlparseChars u.data).scheme ≠ [] →
      ((urlparseChars u.data).path = [] ∨
        ∃ t, (urlparseChars u.data).path = '/' :: t) →
      (∀ c ∈ (urlparseChars u.data).path, c ≠ ';') →
      normalize_url (normalize_url u) = normalize_url u) ∧
    normalize_url "https://Example.com/a/" = normalize_url "https://example.com/a" ∧
    normalize_url "https://example.com/a?q=1#frag" = "https://example.com/a" ∧
    normalize_url "HTTP://EXAMPLE.COM/" = "http://example.com/" ∧
    normalize_url "https://example.com" = "https://example.com/" := by
  refine ⟨fun u h1 h2 h3 => normalize_url_idem_of_parse u h1 h2 h3,
    by decide, by decide, by decide, by decide⟩

set_option maxRecDepth 100000 in
theorem C7_normalize_idempotent_witness :
    normalize_url (normalize_url "https://example.com/a")
      = normalize_url "https://example.com/a" :=
  C7_normalize_idempotent.1 "https://example.com/a" (by decide)
    (Or.inr ⟨['a'], by decide⟩) (by decide)

end RagChatbot
